import Mathlib

/-!
Verification development for the firehose exporter collectors.

The development shallowly embeds the two collectors of the repository
(`HttpStartStopCollector` and `ValueMetricsCollector`) together with the
streaming quantile sketch they use.  Go maps are embedded as association
lists (`List (κ × α)`), Go `float64` values as rationals, and the
channel-based metric emission as functions returning lists of observation
records.  Stateful walks are embedded by explicit state passing.
-/

set_option maxHeartbeats 1000000

namespace FirehoseExporter

/-! ### The streaming quantile sketch -/

/-- One retained sample of the quantile summary: the sample value `v`,
the minimum rank increment `g` and the rank uncertainty `d`.
Modelled from the spec: the sketch (`github.com/bmizerany/perks/quantile`,
used through `quantile.NewTargeted` / `Insert` / `Query` / `Count` /
`Samples`) is not among the repository sources; spec sections 3 and 4.1
describe it as an ordered sequence of `(value, g, delta)` triples
maintained by the Greenwald-Khanna discipline.  Values are rationals. -/
structure GKEntry where
  v : ℚ
  g : ℕ
  d : ℕ
deriving DecidableEq

/-- A quantile summary is the ordered list of its retained samples. -/
abbrev GKList := List GKEntry

/-- `Count()`: the total number of inserted observations; compression
preserves the sum of the `g` fields, so this is the insert count. -/
def gkCount (l : GKList) : ℕ := (l.map (fun e => e.g)).sum

/-- The merge threshold `⌊2·ε·n⌋` of the Greenwald-Khanna discipline
(spec 4.1: a merge is legal only if
`g i + g (i+1) + delta (i+1) <= floor (2 * eps * N)`), computed on the
numerator and denominator of `ε` so that it evaluates by reduction. -/
def gkThreshold (eps : ℚ) (n : ℕ) : ℕ :=
  ((2 * eps.num * (n : ℤ)) / (eps.den : ℤ)).toNat

/-- The uncertainty assigned to a sample inserted strictly inside the
summary: one less than the merge threshold (clamped at zero). -/
def gkBand (eps : ℚ) (n : ℕ) : ℕ :=
  ((2 * eps.num * (n : ℤ)) / (eps.den : ℤ) - 1).toNat

/-- The integer ceiling of the fraction `a / b`. -/
def ceilDiv (a : ℤ) (b : ℕ) : ℤ := -((-a) / (b : ℤ))

/-- Insertion of `v` into the tail of a summary whose head has already
been passed: before the first strictly larger retained value with the
interior uncertainty `band`, or at the very end with uncertainty 0. -/
def gkInsAux (band : ℕ) (v : ℚ) : GKList → GKList
  | [] => [⟨v, 1, 0⟩]
  | e :: rest =>
      if v < e.v then ⟨v, 1, band⟩ :: e :: rest
      else e :: gkInsAux band v rest

/-- `Insert(v)` without compression: a new minimum becomes the head with
uncertainty 0, otherwise the value is placed by `gkInsAux`. -/
def gkRawInsert (eps : ℚ) (v : ℚ) (l : GKList) : GKList :=
  match l with
  | [] => [⟨v, 1, 0⟩]
  | e :: rest =>
      if v < e.v then ⟨v, 1, 0⟩ :: e :: rest
      else e :: gkInsAux (gkBand eps (gkCount (e :: rest))) v rest

/-- One right-to-left compression pass over the tail of a summary: a
sample is merged into its right neighbour whenever
`g c + g x + d x ≤ thr`. -/
def gkCompressGo (thr : ℕ) : GKList → GKList
  | [] => []
  | c :: rest =>
      match gkCompressGo thr rest with
      | [] => [c]
      | x :: r2 =>
          if c.g + x.g + x.d ≤ thr then ⟨x.v, c.g + x.g, x.d⟩ :: r2
          else c :: x :: r2

/-- Compression never removes the head sample (the retained minimum). -/
def gkCompress (thr : ℕ) : GKList → GKList
  | [] => []
  | e :: rest => e :: gkCompressGo thr rest

/-- `Insert(v)`: raw insertion followed by a compression pass at the
current merge threshold. -/
def gkInsert (eps : ℚ) (v : ℚ) (l : GKList) : GKList :=
  let l1 := gkRawInsert eps v l
  gkCompress (gkThreshold eps (gkCount l1)) l1

/-- The query walk: starting from the head, advance to the next retained
sample while its maximum possible rank `acc + g + d` stays within the
query threshold `t`; return the last sample reached. -/
def gkQueryGo (t : ℤ) (best : ℚ) (acc : ℕ) : GKList → ℚ
  | [] => best
  | x :: rest =>
      if ((acc + x.g + x.d : ℕ) : ℤ) ≤ t then gkQueryGo t x.v (acc + x.g) rest
      else best

/-- `Query(φ)`: 0 on an empty sketch, otherwise the walk at threshold
`⌈φ·n⌉ + ⌈ε·n⌉` (the ceilings computed on numerators and
denominators). -/
def gkQuery (eps : ℚ) (q : ℚ) (l : GKList) : ℚ :=
  match l with
  | [] => 0
  | e :: rest =>
      let n : ℕ := gkCount (e :: rest)
      gkQueryGo (ceilDiv (q.num * n) q.den + ceilDiv (eps.num * n) eps.den)
        e.v e.g rest

/-- `Samples()` total: the sum of the retained sample values, as computed
by the emission loops (`for _, sample := range stream.Samples()`). -/
def sampleSum (l : GKList) : ℚ := (l.map (fun e => e.v)).sum

/-- Building a sketch by inserting a list of values in order. -/
def mkSketch (eps : ℚ) (vals : List ℚ) : GKList :=
  vals.foldl (fun s v => gkInsert eps v s) []

/-- The error tolerance of the repository's sketches:
`quantile.NewTargeted` uses the perks default `epsilon = 0.01`
(written `mkRat 1 100` so that it evaluates by reduction). -/
def sketchEps : ℚ := mkRat 1 100

/-- The number of inserted values strictly below `w`. -/
def countLT (S : List ℚ) (w : ℚ) : ℕ := (S.filter (fun x => x < w)).length

/-- The number of inserted values less than or equal to `w`. -/
def countLE (S : List ℚ) (w : ℚ) : ℕ := (S.filter (fun x => x ≤ w)).length

/-- The natural `p` is a possible rank of `w` within the multiset of
inserted values `S`: at least `p` values are `≤ w` and fewer than `p`
values are `< w`. -/
def isRankOf (p : ℕ) (w : ℚ) (S : List ℚ) : Prop :=
  countLT S w < p ∧ p ≤ countLE S w

/-- Per-entry rank bounds of a summary against the multiset of inserted
values `S`, with `acc` the sum of the `g` fields of the preceding
entries: each retained value is an inserted value whose minimum rank
`acc + g` is realisable from below and whose maximum rank
`acc + g + d - 1` is realisable from above. -/
def entOK (S : List ℚ) : ℕ → GKList → Prop
  | _, [] => True
  | acc, e :: rest =>
      acc + e.g ≤ countLE S e.v ∧ countLT S e.v + 1 ≤ acc + e.g + e.d ∧
        e.v ∈ S ∧ entOK S (acc + e.g) rest

/-- The largest admissible uncertainty of any retained sample at insert
count `n`. -/
def gkMaxBand (eps : ℚ) (n : ℕ) : ℕ := max (gkThreshold eps n) 1

/-- Every retained sample has positive weight and bounded total
uncertainty `g + d ≤ B`. -/
def gBound (B : ℕ) (l : GKList) : Prop := ∀ e ∈ l, 1 ≤ e.g ∧ e.g + e.d ≤ B

/-- The head of the summary is an exact minimum: weight 1, delta 0. -/
def headOK : GKList → Prop
  | [] => True
  | e :: _ => e.g = 1 ∧ e.d = 0

/-- Retained values are sorted. -/
def sortedVals (l : GKList) : Prop := l.Pairwise (fun x y => x.v ≤ y.v)

/-- The Greenwald-Khanna invariant of a summary `l` for the inserted
values `S`. -/
def GKInv (eps : ℚ) (S : List ℚ) (l : GKList) : Prop :=
  gkCount l = S.length ∧ sortedVals l ∧ gBound (gkMaxBand eps S.length) l ∧
    headOK l ∧ entOK S 0 l

/-! ### Decimal rendering (strconv.Itoa) -/

/-- The decimal digit character of `n % 10`-style values. -/
def digitChar (n : ℕ) : Char := Char.ofNat (48 + n)

/-- Decimal digits of a natural number, most significant first; the fuel
argument makes the recursion structural. -/
def natDecimalDigitsAux : ℕ → ℕ → List Char
  | 0, _ => []
  | fuel + 1, n =>
      if n < 10 then [digitChar n]
      else natDecimalDigitsAux fuel (n / 10) ++ [digitChar (n % 10)]

/-- Decimal representation of a natural number. -/
def natToDecimalString (n : ℕ) : String := ⟨natDecimalDigitsAux (n + 1) n⟩

/-- `strconv.Itoa`: decimal representation of an integer. -/
def intToDecimalString : ℤ → String
  | Int.ofNat n => natToDecimalString n
  | Int.negSucc n => "-" ++ natToDecimalString (n + 1)

/-- Value of a digit character. -/
def charDigitVal (c : Char) : ℕ := c.toNat - 48

/-- The number denoted by a list of decimal digit characters. -/
def decimalValChars (cs : List Char) : ℕ :=
  cs.foldl (fun a c => 10 * a + charDigitVal c) 0

/-- The integer denoted by a decimal string with an optional leading
minus sign. -/
def decimalVal (s : String) : ℤ :=
  match s.data with
  | [] => 0
  | c :: rest =>
      if c = Char.ofNat 45 then -((decimalValChars rest : ℕ) : ℤ)
      else (decimalValChars (c :: rest) : ℤ)

/-! ### Association lists (Go maps) -/

/-- Go map lookup `m[k]`. -/
def alookup {κ α : Type} [DecidableEq κ] (k : κ) : List (κ × α) → Option α
  | [] => none
  | p :: rest => if k = p.1 then some p.2 else alookup k rest

/-- The Go pattern `v, ok := m[k]; if !ok { v = init; m[k] = v }` followed
by a mutation `f` of the entry through its pointer: update in place when
present, otherwise append a fresh entry. -/
def aupsert {κ α : Type} [DecidableEq κ] (k : κ) (init : α) (f : α → α) :
    List (κ × α) → List (κ × α)
  | [] => [(k, f init)]
  | p :: rest =>
      if k = p.1 then (p.1, f p.2) :: rest else p :: aupsert k init f rest

/-- Keys of an association list are pairwise distinct (a Go map cannot
hold a key twice). -/
def keysNodup {κ α : Type} (l : List (κ × α)) : Prop :=
  (l.map Prod.fst).Nodup

/-! ### The HTTP start-stop aggregation tree -/

/-- One HTTP start-stop record of the store's batch.  Modelled from the
spec: the record type `metrics.HttpStartStop` is not among the sources;
spec section 3 gives its fields (`HttpStartStopRecord`), matching the
fields read by `calculateMetrics`. -/
structure HttpStartStop where
  ApplicationId : String
  InstanceId : String
  Uri : String
  Method : String
  StatusCode : ℤ
  ContentLength : ℤ
  ClientDuration : ℤ
  ServerDuration : ℤ
deriving DecidableEq

/-- The leaf node of the aggregation tree (`type Method struct`). -/
structure Method where
  StatusCodes : List (ℤ × ℤ)
  ContentLength : GKList
  ClientDuration : GKList
  ServerDuration : GKList
deriving DecidableEq

/-- `type Uri struct { Methods map[string]*Method }`. -/
structure Uri where
  Methods : List (String × Method)
deriving DecidableEq

/-- `type Instance struct { Uris map[string]*Uri }`. -/
structure Instance where
  Uris : List (String × Uri)
deriving DecidableEq

/-- `type Application struct { Instances map[string]*Instance }`. -/
structure Application where
  Instances : List (String × Instance)
deriving DecidableEq

/-- `type Applications map[string]*Application`. -/
abbrev Applications := List (String × Application)

/-- A fresh leaf: `StatusCodes` empty, three fresh sketches targeted at
quantiles 0.50, 0.90, 0.99. -/
def emptyMethod : Method := ⟨[], [], [], []⟩

/-- The leaf mutation performed for one record:
`method.StatusCodes[statusCode]++` and the three sketch insertions. -/
def updateMethod (r : HttpStartStop) (m : Method) : Method :=
  { StatusCodes := aupsert r.StatusCode 0 (fun c => c + 1) m.StatusCodes
    ContentLength := gkInsert sketchEps (r.ContentLength : ℚ) m.ContentLength
    ClientDuration := gkInsert sketchEps (r.ClientDuration : ℚ) m.ClientDuration
    ServerDuration := gkInsert sketchEps (r.ServerDuration : ℚ) m.ServerDuration }

/-- The loop body of `calculateMetrics`: skip records with empty
`ApplicationId`, otherwise create the nested path lazily and mutate the
leaf. -/
def addRecord (apps : Applications) (r : HttpStartStop) : Applications :=
  if r.ApplicationId = "" then apps
  else
    aupsert r.ApplicationId ⟨[]⟩
      (fun app =>
        ⟨aupsert r.InstanceId ⟨[]⟩
          (fun inst =>
            ⟨aupsert r.Uri ⟨[]⟩
              (fun uri =>
                ⟨aupsert r.Method emptyMethod (updateMethod r) uri.Methods⟩)
              inst.Uris⟩)
          app.Instances⟩)
      apps

/-- `calculateMetrics`: fold the loop body over the batch, starting from
the empty tree. -/
def calculateMetrics (httpStartStops : List HttpStartStop) : Applications :=
  httpStartStops.foldl addRecord []

/-- Lookup of the leaf at path `(a, i, u, m)`. -/
def findMethod (t : Applications) (a i u m : String) : Option Method :=
  (alookup a t).bind fun app =>
    (alookup i app.Instances).bind fun inst =>
      (alookup u inst.Uris).bind fun uri => alookup m uri.Methods

/-- The `(applicationId, instanceId, uri, method)` tuple of a record. -/
def recordKey (r : HttpStartStop) : String × String × String × String :=
  (r.ApplicationId, r.InstanceId, r.Uri, r.Method)

/-- A record contributes to leaf `k` when its tuple is `k` and its
application id is non-empty. -/
def contributes (r : HttpStartStop) (k : String × String × String × String) : Prop :=
  recordKey r = k ∧ r.ApplicationId ≠ ""

instance (r : HttpStartStop) (k : String × String × String × String) :
    Decidable (contributes r k) := by
  unfold contributes; infer_instance

/-- The records of a batch contributing to leaf `k`, in order. -/
def contrib (l : List HttpStartStop) (k : String × String × String × String) :
    List HttpStartStop :=
  l.filter (fun r => decide (contributes r k))

/-- The paths of all leaves of a tree. -/
def pathsOf (t : Applications) : List (String × String × String × String) :=
  t.flatMap fun pa =>
    pa.2.Instances.flatMap fun pi =>
      pi.2.Uris.flatMap fun pu =>
        pu.2.Methods.map fun pm => (pa.1, pi.1, pu.1, pm.1)

/-- All Go maps of a uri node have pairwise distinct keys. -/
def uriNodup (uri : Uri) : Prop :=
  keysNodup uri.Methods ∧ ∀ pm ∈ uri.Methods, keysNodup pm.2.StatusCodes

/-- All Go maps of an instance node have pairwise distinct keys. -/
def instanceNodup (inst : Instance) : Prop :=
  keysNodup inst.Uris ∧ ∀ pu ∈ inst.Uris, uriNodup pu.2

/-- All Go maps of an application node have pairwise distinct keys. -/
def applicationNodup (app : Application) : Prop :=
  keysNodup app.Instances ∧ ∀ pi ∈ app.Instances, instanceNodup pi.2

/-- All Go maps of the tree have pairwise distinct keys. -/
def treeNodup (t : Applications) : Prop :=
  keysNodup t ∧ ∀ pa ∈ t, applicationNodup pa.2

instance (uri : Uri) : Decidable (uriNodup uri) := by
  unfold uriNodup keysNodup; infer_instance

instance (inst : Instance) : Decidable (instanceNodup inst) := by
  unfold instanceNodup keysNodup; infer_instance

instance (app : Application) : Decidable (applicationNodup app) := by
  unfold applicationNodup keysNodup; infer_instance

instance (t : Applications) : Decidable (treeNodup t) := by
  unfold treeNodup keysNodup; infer_instance

/-- The count per status code at a leaf (`0` when the leaf or the status
code is absent). -/
def statusLookup (m : Method) (sc : ℤ) : ℤ := (alookup sc m.StatusCodes).getD 0

/-- The sum of all per-status counts of a leaf. -/
def statusSum (m : Method) : ℤ := (m.StatusCodes.map (fun p => p.2)).sum

/-- Per-status count at a path of a tree. -/
def statusCountAt (t : Applications) (a i u m : String) (sc : ℤ) : ℤ :=
  ((findMethod t a i u m).map (fun meth => statusLookup meth sc)).getD 0

/-- `Count()` of the content-length sketch at a path of a tree. -/
def contentCountAt (t : Applications) (a i u m : String) : ℕ :=
  ((findMethod t a i u m).map (fun meth => gkCount meth.ContentLength)).getD 0

/-- `Count()` of the client-duration sketch at a path of a tree. -/
def clientCountAt (t : Applications) (a i u m : String) : ℕ :=
  ((findMethod t a i u m).map (fun meth => gkCount meth.ClientDuration)).getD 0

/-- `Count()` of the server-duration sketch at a path of a tree. -/
def serverCountAt (t : Applications) (a i u m : String) : ℕ :=
  ((findMethod t a i u m).map (fun meth => gkCount meth.ServerDuration)).getD 0

/-- Folding the leaf mutations of a contribution list over an optional
leaf, mirroring lazily created leaves: the characterization of
`calculateMetrics` factors through this function. -/
def applyContribs (o : Option Method) : List HttpStartStop → Option Method
  | [] => o
  | r :: rs => applyContribs (some (updateMethod r (o.getD emptyMethod))) rs

/-- The record of spec scenario A with status 200. -/
def scenarioRecordA : HttpStartStop := ⟨"a1", "i1", "/x", "GET", 200, 100, 50, 40⟩

/-- The record of spec scenario A with status 500. -/
def scenarioRecordA5 : HttpStartStop := ⟨"a1", "i1", "/x", "GET", 500, 100, 50, 40⟩

/-- The batch of spec scenario A: the 200-record twice, the 500-record
once. -/
def scenarioA : List HttpStartStop := [scenarioRecordA, scenarioRecordA, scenarioRecordA5]

/-- A record with empty application id (spec scenario B). -/
def scenarioB : HttpStartStop := ⟨"", "i1", "/x", "GET", 200, 100, 50, 40⟩

/-! ### The metric emitter (HTTP start-stop path) -/

/-- An abstract metric observation handed to the exposition boundary. -/
inductive HMetric where
  | summary (name : String) (count : ℕ) (sum : ℚ) (quantiles : List (ℚ × ℚ))
      (labelValues : List String)
  | counter (name : String) (value : ℤ) (labelValues : List String)
deriving DecidableEq

/-- The subsystem constant of the HTTP start-stop collector. -/
def http_start_stop_subsystem : String := "http_start_stop"

/-- The subsystem constant of the value metrics collector. -/
def value_metrics_subsystem : String := "value_metrics"

/-- `prometheus.BuildFQName` for non-empty namespace, subsystem and name
(spec 6: metric full name is `namespace_subsystem_metric`). -/
def fqName (ns sub name : String) : String := ns ++ "_" ++ sub ++ "_" ++ name

/-- The three quantile estimates `{0.5, 0.9, 0.99}` of a sketch, as the
summary's quantile map. -/
def summaryQuantiles (l : GKList) : List (ℚ × ℚ) :=
  [(mkRat 1 2, gkQuery sketchEps (mkRat 1 2) l),
   (mkRat 9 10, gkQuery sketchEps (mkRat 9 10) l),
   (mkRat 99 100, gkQuery sketchEps (mkRat 99 100) l)]

/-- `reportResponseSize`: one summary observation carrying the sketch's
count, the sum of its retained samples and the three quantile
estimates. -/
def reportResponseSize (responseSize : GKList)
    (applicationID instanceID uri method ns : String) : HMetric :=
  HMetric.summary (fqName ns http_start_stop_subsystem "response_size_bytes")
    (gkCount responseSize) (sampleSum responseSize) (summaryQuantiles responseSize)
    [applicationID, instanceID, uri, method]

/-- `reportClientRequestDuration`. -/
def reportClientRequestDuration (clientRequestDuration : GKList)
    (applicationID instanceID uri method ns : String) : HMetric :=
  HMetric.summary
    (fqName ns http_start_stop_subsystem "client_request_duration_nanoseconds")
    (gkCount clientRequestDuration) (sampleSum clientRequestDuration)
    (summaryQuantiles clientRequestDuration)
    [applicationID, instanceID, uri, method]

/-- `reportServerRequestDuration`. -/
def reportServerRequestDuration (serverRequestDuration : GKList)
    (applicationID instanceID uri method ns : String) : HMetric :=
  HMetric.summary
    (fqName ns http_start_stop_subsystem "server_request_duration_nanoseconds")
    (gkCount serverRequestDuration) (sampleSum serverRequestDuration)
    (summaryQuantiles serverRequestDuration)
    [applicationID, instanceID, uri, method]

/-- `reportRequestTotal`: one counter observation with the status code as
fifth label. -/
def reportRequestTotal (requestTotal : ℤ)
    (applicationID instanceID uri method statusCode ns : String) : HMetric :=
  HMetric.counter (fqName ns http_start_stop_subsystem "request_total")
    requestTotal [applicationID, instanceID, uri, method, statusCode]

/-- The observations emitted for one leaf: three summaries followed by
one counter per status code entry. -/
def methodReport (ns a i u mk : String) (meth : Method) : List HMetric :=
  [reportResponseSize meth.ContentLength a i u mk ns,
   reportClientRequestDuration meth.ClientDuration a i u mk ns,
   reportServerRequestDuration meth.ServerDuration a i u mk ns] ++
    meth.StatusCodes.map fun p =>
      reportRequestTotal p.2 a i u mk (intToDecimalString p.1) ns

/-- `reportMetrics`: the walk over the aggregation tree. -/
def reportMetrics (ns : String) (t : Applications) : List HMetric :=
  t.flatMap fun pa =>
    pa.2.Instances.flatMap fun pi =>
      pi.2.Uris.flatMap fun pu =>
        pu.2.Methods.flatMap fun pm => methodReport ns pa.1 pi.1 pu.1 pm.1 pm.2

/-- The leaf labels of an observation: its first four label values. -/
def obsLeaf : HMetric → List String
  | HMetric.summary _ _ _ _ lv => lv.take 4
  | HMetric.counter _ _ lv => lv.take 4

/-! ### The metric emitter (value metrics path) -/

/-- One value metric of the store's batch.  Modelled from the spec: the
record type `metrics.ValueMetric` is not among the sources; spec section
3 gives its fields, matching the fields read by
`ValueMetricsCollector.Collect`. -/
structure ValueMetric where
  Origin : String
  Deployment : String
  Job : String
  Index : String
  IP : String
  Name : String
  Unit : String
  Value : ℚ
  Tags : List (String × String)
deriving DecidableEq

/-- A gauge observation as built by `prometheus.NewConstMetric` over a
fresh descriptor. -/
structure GaugeObs where
  name : String
  help : String
  labelNames : List String
  constLabels : List (String × String)
  value : ℚ
  labelValues : List String
deriving DecidableEq

/-- The fixed label names attached to every value metric gauge. -/
def valueMetricLabelNames : List String :=
  ["origin", "bosh_deployment", "bosh_job_name", "bosh_job_id", "bosh_job_ip", "unit"]

/-- The gauge observation built for one value metric: the metric name is
derived from `(origin, name)` by normalization, the fixed labels carry
the six record fields, each tag adds one label (its key normalized), the
`environment` constant label is attached, and the value is the metric's
value.  `normalize` embeds `utils.NormalizeName`, `nd` and `no` embed
`utils.NormalizeNameDesc` and `utils.NormalizeOriginDesc` (external
collaborators, spec section 1). -/
def buildGauge (normalize nd no : String → String) (ns env : String)
    (vm : ValueMetric) : GaugeObs :=
  { name := fqName ns value_metrics_subsystem
      (normalize vm.Origin ++ "_" ++ normalize vm.Name)
    help := "Cloud Foundry Firehose " ++ nd vm.Name ++ " value metric from " ++
      no vm.Origin ++ "."
    labelNames := valueMetricLabelNames ++ vm.Tags.map (fun p => normalize p.1)
    constLabels := [("environment", env)]
    value := vm.Value
    labelValues := [vm.Origin, vm.Deployment, vm.Job, vm.Index, vm.IP, vm.Unit] ++
      vm.Tags.map (fun p => p.2) }

/-- `ValueMetricsCollector.Collect`: build one gauge per value metric;
when the exposition boundary rejects the observation (`ok` is false,
embedding the `err != nil` branch of `prometheus.NewConstMetric`) the
record is dropped (and logged) and the loop continues. -/
def valueMetricsCollect (normalize nd no : String → String)
    (ok : GaugeObs → Bool) (ns env : String)
    (vms : List ValueMetric) : List GaugeObs :=
  vms.flatMap fun vm =>
    let g := buildGauge normalize nd no ns env vm
    if ok g then [g] else []

/-- The value metric of spec scenario C (metadata fields chosen
arbitrarily; the scenario fixes origin, name, value and tags). -/
def scenarioC : ValueMetric :=
  ⟨"doppler", "cf", "doppler", "0", "10.0.0.1", "memory", "bytes", 1024,
    [("az", "z1")]⟩

/-! ### State-passing embeddings of the emission walks -/

/-- `reportResponseSize` with the sketch threaded through: the summary is
built from reads (`Samples`, `Query`, `Count`), which are
non-destructive (spec section 3), so the sketch is returned as the new
state. -/
def reportResponseSizeSt (responseSize : GKList)
    (applicationID instanceID uri method ns : String) : HMetric × GKList :=
  (reportResponseSize responseSize applicationID instanceID uri method ns,
   responseSize)

/-- `reportClientRequestDuration` with the sketch threaded through. -/
def reportClientRequestDurationSt (clientRequestDuration : GKList)
    (applicationID instanceID uri method ns : String) : HMetric × GKList :=
  (reportClientRequestDuration clientRequestDuration applicationID instanceID uri
      method ns,
   clientRequestDuration)

/-- `reportServerRequestDuration` with the sketch threaded through. -/
def reportServerRequestDurationSt (serverRequestDuration : GKList)
    (applicationID instanceID uri method ns : String) : HMetric × GKList :=
  (reportServerRequestDuration serverRequestDuration applicationID instanceID uri
      method ns,
   serverRequestDuration)

/-- The leaf visit with state threaded: the three summaries and the
status-code loop, returning the emitted observations and the leaf
rebuilt from the returned state. -/
def methodReportSt (ns a i u mk : String) (meth : Method) : List HMetric × Method :=
  let r1 := reportResponseSizeSt meth.ContentLength a i u mk ns
  let r2 := reportClientRequestDurationSt meth.ClientDuration a i u mk ns
  let r3 := reportServerRequestDurationSt meth.ServerDuration a i u mk ns
  let rs := meth.StatusCodes.foldr
    (fun p (acc : List HMetric × List (ℤ × ℤ)) =>
      (reportRequestTotal p.2 a i u mk (intToDecimalString p.1) ns :: acc.1,
       p :: acc.2))
    ([], [])
  (r1.1 :: r2.1 :: r3.1 :: rs.1,
   { StatusCodes := rs.2, ContentLength := r1.2, ClientDuration := r2.2,
     ServerDuration := r3.2 })

/-- The uri-level walk with state threaded. -/
def uriReportSt (ns a i u : String) (uri : Uri) : List HMetric × Uri :=
  let r := uri.Methods.foldr
    (fun pm (acc : List HMetric × List (String × Method)) =>
      let x := methodReportSt ns a i u pm.1 pm.2
      (x.1 ++ acc.1, (pm.1, x.2) :: acc.2))
    ([], [])
  (r.1, ⟨r.2⟩)

/-- The instance-level walk with state threaded. -/
def instanceReportSt (ns a i : String) (inst : Instance) : List HMetric × Instance :=
  let r := inst.Uris.foldr
    (fun pu (acc : List HMetric × List (String × Uri)) =>
      let x := uriReportSt ns a i pu.1 pu.2
      (x.1 ++ acc.1, (pu.1, x.2) :: acc.2))
    ([], [])
  (r.1, ⟨r.2⟩)

/-- The application-level walk with state threaded. -/
def applicationReportSt (ns a : String) (app : Application) :
    List HMetric × Application :=
  let r := app.Instances.foldr
    (fun pi (acc : List HMetric × List (String × Instance)) =>
      let x := instanceReportSt ns a pi.1 pi.2
      (x.1 ++ acc.1, (pi.1, x.2) :: acc.2))
    ([], [])
  (r.1, ⟨r.2⟩)

/-- `reportMetrics` with the tree threaded through as explicit state. -/
def reportMetricsSt (ns : String) (t : Applications) : List HMetric × Applications :=
  t.foldr
    (fun pa acc =>
      let x := applicationReportSt ns pa.1 pa.2
      (x.1 ++ acc.1, (pa.1, x.2) :: acc.2))
    ([], [])

/-- `ValueMetricsCollector.Collect` with the batch threaded through as
explicit state. -/
def valueMetricsCollectSt (normalize nd no : String → String)
    (ok : GaugeObs → Bool) (ns env : String)
    (vms : List ValueMetric) : List GaugeObs × List ValueMetric :=
  vms.foldr
    (fun vm acc =>
      let g := buildGauge normalize nd no ns env vm
      ((if ok g then [g] else []) ++ acc.1, vm :: acc.2))
    ([], [])

/-! ### Association list lemmas -/

theorem alookup_aupsert_self {κ α : Type} [DecidableEq κ] (k : κ) (init : α)
    (f : α → α) (l : List (κ × α)) :
    alookup k (aupsert k init f l) = some (f ((alookup k l).getD init)) := by
  induction l with
  | nil => simp [alookup, aupsert]
  | cons p rest ih =>
      by_cases h : k = p.1
      · simp [alookup, aupsert, h]
      · simp [alookup, aupsert, h, ih]

theorem alookup_aupsert_ne {κ α : Type} [DecidableEq κ] {k k' : κ} (init : α)
    (f : α → α) (l : List (κ × α)) (hk : k' ≠ k) :
    alookup k' (aupsert k init f l) = alookup k' l := by
  induction l with
  | nil => simp [alookup, aupsert, hk]
  | cons p rest ih =>
      by_cases h : k = p.1
      · subst h
        simp [alookup, aupsert, hk]
      · by_cases h2 : k' = p.1
        · simp [alookup, aupsert, h, h2]
        · simp [alookup, aupsert, h, h2, ih]

theorem mem_aupsert {κ α : Type} [DecidableEq κ] {k : κ} {init : α} {f : α → α}
    {l : List (κ × α)} {x : κ × α} (hx : x ∈ aupsert k init f l) :
    x ∈ l ∨ x = (k, f ((alookup k l).getD init)) := by
  induction l with
  | nil => simp [aupsert] at hx; simp [alookup, hx]
  | cons p rest ih =>
      by_cases h : k = p.1
      · subst h
        simp [aupsert] at hx
        rcases hx with hx | hx
        · right; simp [alookup, hx]
        · left; simp [hx]
      · simp [aupsert, h] at hx
        rcases hx with hx | hx
        · left; simp [hx]
        · rcases ih hx with h2 | h2
          · left; simp [h2]
          · right; simpa [alookup, h] using h2

theorem keys_aupsert_mem {κ α : Type} [DecidableEq κ] {k : κ} {init : α}
    {f : α → α} {l : List (κ × α)} {k' : κ}
    (h : k' ∈ (aupsert k init f l).map Prod.fst) :
    k' ∈ l.map Prod.fst ∨ k' = k := by
  rcases List.mem_map.1 h with ⟨x, hx, hfst⟩
  rcases mem_aupsert hx with h2 | h2
  · exact Or.inl (hfst ▸ List.mem_map_of_mem Prod.fst h2)
  · right; rw [← hfst, h2]

theorem keysNodup_aupsert {κ α : Type} [DecidableEq κ] (k : κ) (init : α)
    (f : α → α) {l : List (κ × α)} (h : keysNodup l) :
    keysNodup (aupsert k init f l) := by
  induction l with
  | nil => simp [aupsert, keysNodup]
  | cons p rest ih =>
      unfold keysNodup at h
      simp only [List.map_cons, List.nodup_cons] at h
      by_cases hk : k = p.1
      · subst hk
        unfold keysNodup
        simpa [aupsert] using h
      · unfold keysNodup
        simp only [aupsert, hk, if_false, List.map_cons, List.nodup_cons]
        refine ⟨fun hmem => ?_, ih h.2⟩
        rcases keys_aupsert_mem hmem with h2 | h2
        · exact h.1 h2
        · exact hk h2.symm

theorem alookup_mem {κ α : Type} [DecidableEq κ] {k : κ} {v : α}
    {l : List (κ × α)} (h : alookup k l = some v) : (k, v) ∈ l := by
  induction l with
  | nil => simp [alookup] at h
  | cons p rest ih =>
      by_cases hk : k = p.1
      · subst hk
        simp [alookup] at h
        simp [← h]
      · simp [alookup, hk] at h
        simp [ih h]

theorem mem_alookup {κ α : Type} [DecidableEq κ] {k : κ} {v : α}
    {l : List (κ × α)} (h : (k, v) ∈ l) (hnd : keysNodup l) :
    alookup k l = some v := by
  induction l with
  | nil => simp at h
  | cons p rest ih =>
      unfold keysNodup at hnd
      simp only [List.map_cons, List.nodup_cons] at hnd
      rcases List.mem_cons.1 h with h1 | h1
      · rw [← h1]; simp [alookup]
      · have hk : k ≠ p.1 := by
          intro he
          exact hnd.1 (he ▸ List.mem_map_of_mem Prod.fst h1)
        simp [alookup, hk, ih h1 hnd.2]

theorem alookup_isSome_iff {κ α : Type} [DecidableEq κ] {k : κ}
    {l : List (κ × α)} : (alookup k l).isSome ↔ k ∈ l.map Prod.fst := by
  induction l with
  | nil => simp [alookup]
  | cons p rest ih =>
      by_cases hk : k = p.1
      · simp [alookup, hk]
      · simp [alookup, hk, ih]

/-! ### Sketch counting lemmas -/

theorem gkCount_cons (e : GKEntry) (l : GKList) :
    gkCount (e :: l) = e.g + gkCount l := by
  simp [gkCount]

theorem gkCount_insAux (band : ℕ) (v : ℚ) (l : GKList) :
    gkCount (gkInsAux band v l) = gkCount l + 1 := by
  induction l with
  | nil => simp [gkInsAux, gkCount]
  | cons e rest ih =>
      by_cases h : v < e.v
      · simp [gkInsAux, h, gkCount_cons]; omega
      · simp [gkInsAux, h, gkCount_cons, ih]; omega

theorem gkCount_rawInsert (eps v : ℚ) (l : GKList) :
    gkCount (gkRawInsert eps v l) = gkCount l + 1 := by
  match l with
  | [] => simp [gkRawInsert, gkCount]
  | e :: rest =>
      by_cases h : v < e.v
      · simp [gkRawInsert, h, gkCount_cons]; omega
      · simp [gkRawInsert, h, gkCount_cons, gkCount_insAux]; omega

theorem gkCount_compressGo (thr : ℕ) (l : GKList) :
    gkCount (gkCompressGo thr l) = gkCount l := by
  induction l with
  | nil => rfl
  | cons c rest ih =>
      rcases hres : gkCompressGo thr rest with _ | ⟨x, r2⟩
      · rw [hres] at ih
        simp only [gkCompressGo, hres]
        simp [gkCount] at ih ⊢
        omega
      · rw [hres] at ih
        simp only [gkCompressGo, hres]
        by_cases h : c.g + x.g + x.d ≤ thr
        · simp only [if_pos h, gkCount_cons] at ih ⊢
          omega
        · simp only [if_neg h, gkCount_cons] at ih ⊢
          omega

theorem gkCount_compress (thr : ℕ) (l : GKList) :
    gkCount (gkCompress thr l) = gkCount l := by
  match l with
  | [] => rfl
  | e :: rest => simp [gkCompress, gkCount_cons, gkCount_compressGo]

theorem gkCount_insert (eps v : ℚ) (l : GKList) :
    gkCount (gkInsert eps v l) = gkCount l + 1 := by
  simp [gkInsert, gkCount_compress, gkCount_rawInsert]

/-! ### Characterization of the aggregation tree -/

theorem alookup_aupsert {κ α : Type} [DecidableEq κ] (k k' : κ) (init : α)
    (f : α → α) (l : List (κ × α)) :
    alookup k' (aupsert k init f l) =
      if k' = k then some (f ((alookup k l).getD init)) else alookup k' l := by
  by_cases h : k' = k
  · subst h
    simp [alookup_aupsert_self]
  · simp [h, alookup_aupsert_ne init f l h]

theorem findMethod_uris (r : HttpStartStop) (u m : String)
    (us : List (String × Uri)) :
    ((alookup u (aupsert r.Uri ⟨[]⟩
        (fun uri => ⟨aupsert r.Method emptyMethod (updateMethod r) uri.Methods⟩)
        us)).bind
      fun uri => alookup m uri.Methods) =
      if u = r.Uri ∧ m = r.Method then
        some (updateMethod r
          (((alookup u us).bind fun uri => alookup m uri.Methods).getD emptyMethod))
      else (alookup u us).bind fun uri => alookup m uri.Methods := by
  by_cases hu : u = r.Uri
  · subst hu
    by_cases hm : m = r.Method
    · subst hm
      rcases hus : alookup r.Uri us with _ | uri <;>
        simp [alookup_aupsert, hus, alookup]
    · rcases hus : alookup r.Uri us with _ | uri <;>
        simp [alookup_aupsert, hus, hm, alookup]
  · simp [alookup_aupsert, hu]

theorem findMethod_instances (r : HttpStartStop) (i u m : String)
    (is : List (String × Instance)) :
    ((alookup i (aupsert r.InstanceId ⟨[]⟩
        (fun inst => ⟨aupsert r.Uri ⟨[]⟩
          (fun uri => ⟨aupsert r.Method emptyMethod (updateMethod r) uri.Methods⟩)
          inst.Uris⟩)
        is)).bind
      fun inst => (alookup u inst.Uris).bind fun uri => alookup m uri.Methods) =
      if i = r.InstanceId ∧ u = r.Uri ∧ m = r.Method then
        some (updateMethod r
          (((alookup i is).bind fun inst =>
              (alookup u inst.Uris).bind fun uri => alookup m uri.Methods).getD
            emptyMethod))
      else (alookup i is).bind fun inst =>
        (alookup u inst.Uris).bind fun uri => alookup m uri.Methods := by
  by_cases hi : i = r.InstanceId
  · subst hi
    rw [alookup_aupsert, if_pos rfl]
    rcases his : alookup r.InstanceId is with _ | inst
    · simp only [Option.getD_none, Option.some_bind]
      rw [findMethod_uris]
      simp [alookup]
    · simp only [Option.getD_some, Option.some_bind]
      rw [findMethod_uris]
      simp [alookup]
  · simp [alookup_aupsert, hi]

theorem contributes_iff (r : HttpStartStop) (a i u m : String) :
    contributes r (a, i, u, m) ↔
      r.ApplicationId ≠ "" ∧ a = r.ApplicationId ∧ i = r.InstanceId ∧
        u = r.Uri ∧ m = r.Method := by
  unfold contributes recordKey
  simp only [Prod.mk.injEq]
  constructor
  · rintro ⟨⟨h1, h2, h3, h4⟩, h5⟩
    exact ⟨h5, h1.symm, h2.symm, h3.symm, h4.symm⟩
  · rintro ⟨h5, h1, h2, h3, h4⟩
    exact ⟨⟨h1.symm, h2.symm, h3.symm, h4.symm⟩, h5⟩

theorem findMethod_addRecord (t : Applications) (r : HttpStartStop)
    (a i u m : String) :
    findMethod (addRecord t r) a i u m =
      if contributes r (a, i, u, m) then
        some (updateMethod r ((findMethod t a i u m).getD emptyMethod))
      else findMethod t a i u m := by
  by_cases happ : r.ApplicationId = ""
  · have hc : ¬ contributes r (a, i, u, m) := fun h => h.2 happ
    rw [if_neg hc]
    simp [addRecord, happ]
  · rw [addRecord, if_neg happ]
    unfold findMethod
    by_cases ha : a = r.ApplicationId
    · subst ha
      rw [alookup_aupsert, if_pos rfl]
      rcases hat : alookup r.ApplicationId t with _ | app
      · simp only [hat, Option.getD_none, Option.some_bind]
        rw [findMethod_instances]
        simp [contributes_iff, happ, alookup, hat]
      · simp only [hat, Option.getD_some, Option.some_bind]
        rw [findMethod_instances]
        simp [contributes_iff, happ, alookup, hat]
    · have hc : ¬ contributes r (a, i, u, m) :=
        fun hcon => ha (((contributes_iff r a i u m).1 hcon).2.1)
      simp [alookup_aupsert, ha, hc]

theorem applyContribs_some (m0 : Method) (l : List HttpStartStop) :
    applyContribs (some m0) l =
      some (l.foldl (fun acc r => updateMethod r acc) m0) := by
  induction l generalizing m0 with
  | nil => rfl
  | cons r rs ih => simp [applyContribs, ih]

theorem applyContribs_cons (r : HttpStartStop) (rs : List HttpStartStop) :
    applyContribs none (r :: rs) =
      some ((r :: rs).foldl (fun acc x => updateMethod x acc) emptyMethod) := by
  rw [applyContribs, applyContribs_some]
  simp

theorem contrib_cons (r : HttpStartStop) (rs : List HttpStartStop)
    (k : String × String × String × String) :
    contrib (r :: rs) k =
      if contributes r k then r :: contrib rs k else contrib rs k := by
  simp only [contrib, List.filter_cons]
  by_cases hc : contributes r k <;> simp [hc]

theorem findMethod_foldl (l : List HttpStartStop) (t : Applications)
    (a i u m : String) :
    findMethod (l.foldl addRecord t) a i u m =
      applyContribs (findMethod t a i u m) (contrib l (a, i, u, m)) := by
  induction l generalizing t with
  | nil => rfl
  | cons r rs ih =>
      rw [List.foldl_cons, ih, contrib_cons, findMethod_addRecord]
      by_cases hc : contributes r (a, i, u, m)
      · rw [if_pos hc, if_pos hc, applyContribs]
      · rw [if_neg hc, if_neg hc]

theorem findMethod_calculateMetrics (l : List HttpStartStop) (a i u m : String) :
    findMethod (calculateMetrics l) a i u m =
      applyContribs none (contrib l (a, i, u, m)) := by
  unfold calculateMetrics
  rw [findMethod_foldl]
  rfl

theorem findMethod_isSome_iff (l : List HttpStartStop) (a i u m : String) :
    (findMethod (calculateMetrics l) a i u m).isSome ↔
      ∃ r ∈ l, contributes r (a, i, u, m) := by
  rw [findMethod_calculateMetrics]
  rcases hc : contrib l (a, i, u, m) with _ | ⟨r, rs⟩
  · simp only [applyContribs, Option.isSome_none, Bool.false_eq_true, false_iff]
    rintro ⟨r, hr, hcon⟩
    have : r ∈ contrib l (a, i, u, m) := by
      simp [contrib, List.mem_filter, hr, hcon]
    rw [hc] at this
    simp at this
  · rw [applyContribs_cons]
    simp only [Option.isSome_some, true_iff]
    have : r ∈ contrib l (a, i, u, m) := by simp [hc]
    simp only [contrib, List.mem_filter, decide_eq_true_eq] at this
    exact ⟨r, this.1, this.2⟩

theorem statusLookup_updateMethod (r : HttpStartStop) (m : Method) (sc : ℤ) :
    statusLookup (updateMethod r m) sc =
      statusLookup m sc + if sc = r.StatusCode then 1 else 0 := by
  unfold statusLookup updateMethod
  simp only
  rw [alookup_aupsert]
  by_cases h : sc = r.StatusCode
  · rcases hl : alookup sc m.StatusCodes with _ | c <;> simp [h, ← hl]
  · simp [h]

theorem statusLookup_foldl (c : List HttpStartStop) (m0 : Method) (sc : ℤ) :
    statusLookup (c.foldl (fun acc r => updateMethod r acc) m0) sc =
      statusLookup m0 sc + (c.countP (fun r => decide (r.StatusCode = sc)) : ℤ) := by
  induction c generalizing m0 with
  | nil => simp
  | cons r rs ih =>
      rw [List.foldl_cons, ih, statusLookup_updateMethod, List.countP_cons]
      by_cases h : r.StatusCode = sc
      · simp [h]
        ring
      · have h2 : ¬ sc = r.StatusCode := fun he => h he.symm
        simp [h, h2]

theorem statusSum_aupsert (sc : ℤ) (scs : List (ℤ × ℤ)) :
    ((aupsert sc 0 (fun c => c + 1) scs).map (fun p => p.2)).sum =
      ((scs.map (fun p => p.2)).sum) + 1 := by
  induction scs with
  | nil => simp [aupsert]
  | cons p rest ih =>
      by_cases h : sc = p.1
      · simp [aupsert, h]
        ring
      · simp [aupsert, h, ih]
        ring

theorem statusSum_updateMethod (r : HttpStartStop) (m : Method) :
    statusSum (updateMethod r m) = statusSum m + 1 := by
  unfold statusSum updateMethod
  simp only
  rw [statusSum_aupsert]

theorem statusSum_foldl (c : List HttpStartStop) (m0 : Method) :
    statusSum (c.foldl (fun acc r => updateMethod r acc) m0) =
      statusSum m0 + (c.length : ℤ) := by
  induction c generalizing m0 with
  | nil => simp
  | cons r rs ih =>
      rw [List.foldl_cons, ih, statusSum_updateMethod]
      simp [List.length_cons]
      ring

theorem gkCounts_foldl (c : List HttpStartStop) (m0 : Method) :
    gkCount (c.foldl (fun acc r => updateMethod r acc) m0).ContentLength =
        gkCount m0.ContentLength + c.length ∧
      gkCount (c.foldl (fun acc r => updateMethod r acc) m0).ClientDuration =
        gkCount m0.ClientDuration + c.length ∧
      gkCount (c.foldl (fun acc r => updateMethod r acc) m0).ServerDuration =
        gkCount m0.ServerDuration + c.length := by
  induction c generalizing m0 with
  | nil => simp
  | cons r rs ih =>
      rw [List.foldl_cons]
      rcases ih (updateMethod r m0) with ⟨h1, h2, h3⟩
      rw [h1, h2, h3]
      unfold updateMethod
      simp [gkCount_insert]
      omega

theorem statusCountAt_calculateMetrics (l : List HttpStartStop)
    (a i u m : String) (sc : ℤ) :
    statusCountAt (calculateMetrics l) a i u m sc =
      ((contrib l (a, i, u, m)).countP (fun r => decide (r.StatusCode = sc)) : ℤ) := by
  unfold statusCountAt
  rw [findMethod_calculateMetrics]
  rcases hc : contrib l (a, i, u, m) with _ | ⟨r, rs⟩
  · simp [applyContribs]
  · rw [applyContribs_cons]
    simp only [Option.map_some', Option.getD_some]
    rw [statusLookup_foldl]
    simp [statusLookup, emptyMethod, alookup]

theorem counts_calculateMetrics (l : List HttpStartStop) (a i u m : String) :
    contentCountAt (calculateMetrics l) a i u m =
        (contrib l (a, i, u, m)).length ∧
      clientCountAt (calculateMetrics l) a i u m =
        (contrib l (a, i, u, m)).length ∧
      serverCountAt (calculateMetrics l) a i u m =
        (contrib l (a, i, u, m)).length := by
  unfold contentCountAt clientCountAt serverCountAt
  rw [findMethod_calculateMetrics]
  rcases hc : contrib l (a, i, u, m) with _ | ⟨r, rs⟩
  · simp [applyContribs]
  · rw [applyContribs_cons]
    rcases gkCounts_foldl (r :: rs) emptyMethod with ⟨h1, h2, h3⟩
    simp only [Option.map_some', Option.getD_some, h1, h2, h3]
    simp [emptyMethod, gkCount]

/-! ### Key uniqueness of the aggregation tree -/

theorem uriNodup_update (r : HttpStartStop) (uri : Uri) (h : uriNodup uri) :
    uriNodup ⟨aupsert r.Method emptyMethod (updateMethod r) uri.Methods⟩ := by
  refine ⟨keysNodup_aupsert _ _ _ h.1, ?_⟩
  intro pm hpm
  rcases mem_aupsert hpm with h2 | h2
  · exact h.2 pm h2
  · rw [h2]
    show keysNodup
      (updateMethod r ((alookup r.Method uri.Methods).getD emptyMethod)).StatusCodes
    unfold updateMethod
    apply keysNodup_aupsert
    rcases hl : alookup r.Method uri.Methods with _ | mOld
    · simp [emptyMethod, keysNodup]
    · exact h.2 (r.Method, mOld) (alookup_mem hl)

theorem instanceNodup_update (r : HttpStartStop) (inst : Instance)
    (h : instanceNodup inst) :
    instanceNodup ⟨aupsert r.Uri ⟨[]⟩
      (fun uri => ⟨aupsert r.Method emptyMethod (updateMethod r) uri.Methods⟩)
      inst.Uris⟩ := by
  refine ⟨keysNodup_aupsert _ _ _ h.1, ?_⟩
  intro pu hpu
  rcases mem_aupsert hpu with h2 | h2
  · exact h.2 pu h2
  · rw [h2]
    apply uriNodup_update
    rcases hl : alookup r.Uri inst.Uris with _ | uOld
    · exact ⟨by simp [keysNodup], by simp⟩
    · exact h.2 (r.Uri, uOld) (alookup_mem hl)

theorem applicationNodup_update (r : HttpStartStop) (app : Application)
    (h : applicationNodup app) :
    applicationNodup ⟨aupsert r.InstanceId ⟨[]⟩
      (fun inst => ⟨aupsert r.Uri ⟨[]⟩
        (fun uri => ⟨aupsert r.Method emptyMethod (updateMethod r) uri.Methods⟩)
        inst.Uris⟩)
      app.Instances⟩ := by
  refine ⟨keysNodup_aupsert _ _ _ h.1, ?_⟩
  intro pi hpi
  rcases mem_aupsert hpi with h2 | h2
  · exact h.2 pi h2
  · rw [h2]
    apply instanceNodup_update
    rcases hl : alookup r.InstanceId app.Instances with _ | iOld
    · exact ⟨by simp [keysNodup], by simp⟩
    · exact h.2 (r.InstanceId, iOld) (alookup_mem hl)

theorem treeNodup_addRecord (t : Applications) (r : HttpStartStop)
    (h : treeNodup t) : treeNodup (addRecord t r) := by
  unfold addRecord
  by_cases happ : r.ApplicationId = ""
  · simpa [happ] using h
  · rw [if_neg happ]
    refine ⟨keysNodup_aupsert _ _ _ h.1, ?_⟩
    intro pa hpa
    rcases mem_aupsert hpa with h2 | h2
    · exact h.2 pa h2
    · rw [h2]
      apply applicationNodup_update
      rcases hl : alookup r.ApplicationId t with _ | appOld
      · exact ⟨by simp [keysNodup], by simp⟩
      · exact h.2 (r.ApplicationId, appOld) (alookup_mem hl)

theorem treeNodup_calculateMetrics (l : List HttpStartStop) :
    treeNodup (calculateMetrics l) := by
  unfold calculateMetrics
  suffices h : ∀ t, treeNodup t → treeNodup (l.foldl addRecord t) from
    h [] ⟨by simp [keysNodup], by simp⟩
  induction l with
  | nil => exact fun t ht => ht
  | cons r rs ih => exact fun t ht => ih _ (treeNodup_addRecord t r ht)

/-! ### Paths of the aggregation tree -/

theorem pathsOf_mem_iff (t : Applications) (hnd : treeNodup t) (a i u m : String) :
    (a, i, u, m) ∈ pathsOf t ↔ (findMethod t a i u m).isSome := by
  unfold pathsOf findMethod
  constructor
  · intro h
    simp only [List.mem_flatMap, List.mem_map] at h
    rcases h with ⟨pa, hpa, pi, hpi, pu, hpu, pm, hpm, heq⟩
    rw [Prod.ext_iff] at heq
    rcases heq with ⟨e1, heq⟩
    rw [Prod.ext_iff] at heq
    rcases heq with ⟨e2, heq⟩
    rw [Prod.ext_iff] at heq
    rcases heq with ⟨e3, e4⟩
    dsimp at e1 e2 e3 e4
    subst e1; subst e2; subst e3; subst e4
    have hA := hnd.2 pa hpa
    have hI := hA.2 pi hpi
    have hU := hI.2 pu hpu
    have h1 : alookup pa.1 t = some pa.2 := mem_alookup (by simpa using hpa) hnd.1
    have h2 : alookup pi.1 pa.2.Instances = some pi.2 :=
      mem_alookup (by simpa using hpi) hA.1
    have h3 : alookup pu.1 pi.2.Uris = some pu.2 :=
      mem_alookup (by simpa using hpu) hI.1
    have h4 : alookup pm.1 pu.2.Methods = some pm.2 :=
      mem_alookup (by simpa using hpm) hU.1
    simp [h1, h2, h3, h4]
  · intro h
    rcases h1 : alookup a t with _ | app
    · rw [h1] at h; simp at h
    rw [h1] at h
    simp only [Option.some_bind] at h
    rcases h2 : alookup i app.Instances with _ | inst
    · rw [h2] at h; simp at h
    rw [h2] at h
    simp only [Option.some_bind] at h
    rcases h3 : alookup u inst.Uris with _ | uri
    · rw [h3] at h; simp at h
    rw [h3] at h
    simp only [Option.some_bind] at h
    rcases h4 : alookup m uri.Methods with _ | meth
    · rw [h4] at h; simp at h
    simp only [List.mem_flatMap, List.mem_map]
    exact ⟨(a, app), alookup_mem h1, (i, inst), alookup_mem h2, (u, uri),
      alookup_mem h3, (m, meth), alookup_mem h4, rfl⟩

theorem nodup_flatMap_tagged {α β γ : Type} (l : List (α × β)) (F : α × β → List γ)
    (tag : γ → α) (hnd : (l.map Prod.fst).Nodup)
    (htag : ∀ p ∈ l, ∀ z ∈ F p, tag z = p.1)
    (hin : ∀ p ∈ l, (F p).Nodup) : (l.flatMap F).Nodup := by
  rw [List.nodup_flatMap]
  refine ⟨hin, ?_⟩
  have hp : List.Pairwise (fun x y : α × β => x.1 ≠ y.1) l := by
    rw [List.Nodup, List.pairwise_map] at hnd
    exact hnd
  refine List.Pairwise.imp_of_mem ?_ hp
  intro x y hx hy hne
  intro z hz1 hz2
  exact hne ((htag x hx z hz1).symm.trans (htag y hy z hz2))

theorem pathsOf_nodup (t : Applications) (hnd : treeNodup t) :
    (pathsOf t).Nodup := by
  unfold pathsOf
  apply nodup_flatMap_tagged _ _ (fun z => z.1) hnd.1
  · intro pa hpa z hz
    simp only [List.mem_flatMap, List.mem_map] at hz
    rcases hz with ⟨pi, _, pu, _, pm, _, heq⟩
    rw [← heq]
  · intro pa hpa
    have hA := hnd.2 pa hpa
    apply nodup_flatMap_tagged _ _ (fun z => z.2.1) hA.1
    · intro pi hpi z hz
      simp only [List.mem_flatMap, List.mem_map] at hz
      rcases hz with ⟨pu, _, pm, _, heq⟩
      rw [← heq]
    · intro pi hpi
      have hI := hA.2 pi hpi
      apply nodup_flatMap_tagged _ _ (fun z => z.2.2.1) hI.1
      · intro pu hpu z hz
        simp only [List.mem_map] at hz
        rcases hz with ⟨pm, _, heq⟩
        rw [← heq]
      · intro pu hpu
        have hU := hI.2 pu hpu
        rw [show (fun pm : String × Method => (pa.1, pi.1, pu.1, pm.1)) =
          ((fun k => (pa.1, pi.1, pu.1, k)) ∘ Prod.fst) from rfl, ← List.map_map]
        apply List.Nodup.map
        · intro k1 k2 hk
          simpa using congrArg (fun q => q.2.2.2) hk
        · exact hU.1

theorem option_eq_some_getD {α : Type} (o : Option α) (d : α)
    (h : o.isSome = true) : o = some (o.getD d) := by
  cases o
  · simp at h
  · simp

theorem calculateMetrics_all_empty (l : List HttpStartStop)
    (h : ∀ r ∈ l, r.ApplicationId = "") : calculateMetrics l = [] := by
  unfold calculateMetrics
  induction l with
  | nil => rfl
  | cons r rs ih =>
      rw [List.foldl_cons]
      have hr : addRecord [] r = [] := by
        simp [addRecord, h r (by simp)]
      rw [hr]
      exact ih fun x hx => h x (by simp [hx])

/-- C1: for every batch of records, the aggregation tree built by
`calculateMetrics` has pairwise distinct leaf paths, a path is a leaf
exactly when some record of the batch carries that
`(applicationId, instanceId, uri, method)` tuple with a non-empty
application id, and a batch consisting only of empty-application-id
records yields the empty tree. -/
theorem calculateMetrics_leaves_spec (l : List HttpStartStop) :
    (pathsOf (calculateMetrics l)).Nodup ∧
      (∀ a i u m : String,
        (a, i, u, m) ∈ pathsOf (calculateMetrics l) ↔
          a ≠ "" ∧ ∃ r ∈ l, recordKey r = (a, i, u, m)) ∧
      ((∀ r ∈ l, r.ApplicationId = "") → calculateMetrics l = []) := by
  refine ⟨pathsOf_nodup _ (treeNodup_calculateMetrics l), ?_,
    calculateMetrics_all_empty l⟩
  intro a i u m
  rw [pathsOf_mem_iff _ (treeNodup_calculateMetrics l), findMethod_isSome_iff]
  constructor
  · rintro ⟨r, hr, hcon⟩
    rcases (contributes_iff r a i u m).1 hcon with ⟨hne, ha, hi, hu, hm⟩
    refine ⟨by rw [ha]; exact hne, r, hr, ?_⟩
    simp [recordKey, ha, hi, hu, hm]
  · rintro ⟨hane, r, hr, hk⟩
    refine ⟨r, hr, hk, ?_⟩
    have h1 : r.ApplicationId = a := congrArg (fun q => q.1) hk
    rw [h1]
    exact hane

/-- C1 witness: aggregating a batch of one record with empty application
id yields the empty tree. -/
theorem calculateMetrics_leaves_spec_witness :
    calculateMetrics [scenarioB] = [] :=
  (calculateMetrics_leaves_spec [scenarioB]).2.2 (by decide)

/-- C3: at every leaf of the aggregation tree the per-status counts sum
to the number of records of the batch contributing to that leaf, and
each of the three sketches counts exactly those records; concretely, for
scenario A (two 200-records and one 500-record at one leaf) the status
counts are 2 and 1 and the response-size sketch count is 3. -/
theorem calculateMetrics_leaf_counts_spec :
    (∀ (l : List HttpStartStop) (a i u m : String) (meth : Method),
        findMethod (calculateMetrics l) a i u m = some meth →
          statusSum meth = ((contrib l (a, i, u, m)).length : ℤ) ∧
          gkCount meth.ContentLength = (contrib l (a, i, u, m)).length ∧
          gkCount meth.ClientDuration = (contrib l (a, i, u, m)).length ∧
          gkCount meth.ServerDuration = (contrib l (a, i, u, m)).length) ∧
      statusCountAt (calculateMetrics scenarioA) "a1" "i1" "/x" "GET" 200 = 2 ∧
      statusCountAt (calculateMetrics scenarioA) "a1" "i1" "/x" "GET" 500 = 1 ∧
      contentCountAt (calculateMetrics scenarioA) "a1" "i1" "/x" "GET" = 3 := by
  refine ⟨?_, by decide, by decide, by decide⟩
  intro l a i u m meth hfind
  rw [findMethod_calculateMetrics] at hfind
  rcases hc : contrib l (a, i, u, m) with _ | ⟨r, rs⟩
  · rw [hc] at hfind
    simp [applyContribs] at hfind
  · rw [hc, applyContribs_cons] at hfind
    have heq2 : meth = (r :: rs).foldl (fun acc x => updateMethod x acc) emptyMethod :=
      (Option.some.inj hfind).symm
    subst heq2
    rcases gkCounts_foldl (r :: rs) emptyMethod with ⟨h1, h2, h3⟩
    refine ⟨?_, ?_, ?_, ?_⟩
    · rw [statusSum_foldl]
      simp [statusSum, emptyMethod]
    · rw [h1]; simp [emptyMethod, gkCount]
    · rw [h2]; simp [emptyMethod, gkCount]
    · rw [h3]; simp [emptyMethod, gkCount]

/-- C3 witness: the general leaf-count law applied to the scenario A
batch at its single leaf. -/
theorem calculateMetrics_leaf_counts_spec_witness :
    statusSum ((findMethod (calculateMetrics scenarioA) "a1" "i1" "/x" "GET").getD
        emptyMethod) =
      ((contrib scenarioA ("a1", "i1", "/x", "GET")).length : ℤ) ∧
    gkCount ((findMethod (calculateMetrics scenarioA) "a1" "i1" "/x" "GET").getD
        emptyMethod).ContentLength =
      (contrib scenarioA ("a1", "i1", "/x", "GET")).length ∧
    gkCount ((findMethod (calculateMetrics scenarioA) "a1" "i1" "/x" "GET").getD
        emptyMethod).ClientDuration =
      (contrib scenarioA ("a1", "i1", "/x", "GET")).length ∧
    gkCount ((findMethod (calculateMetrics scenarioA) "a1" "i1" "/x" "GET").getD
        emptyMethod).ServerDuration =
      (contrib scenarioA ("a1", "i1", "/x", "GET")).length :=
  calculateMetrics_leaf_counts_spec.1 scenarioA "a1" "i1" "/x" "GET" _
    (option_eq_some_getD _ emptyMethod (by decide))

/-- C8: `calculateMetrics` is deterministic (two runs on the identical
batch agree), and aggregating any permutation of a batch yields the same
leaves, the same per-status counts and the same sketch counts at every
leaf. -/
theorem calculateMetrics_perm_spec (l l2 : List HttpStartStop)
    (hp : l.Perm l2) :
    calculateMetrics l = calculateMetrics l ∧
      ∀ a i u m : String,
        ((a, i, u, m) ∈ pathsOf (calculateMetrics l) ↔
          (a, i, u, m) ∈ pathsOf (calculateMetrics l2)) ∧
        (∀ sc : ℤ, statusCountAt (calculateMetrics l) a i u m sc =
          statusCountAt (calculateMetrics l2) a i u m sc) ∧
        contentCountAt (calculateMetrics l) a i u m =
          contentCountAt (calculateMetrics l2) a i u m ∧
        clientCountAt (calculateMetrics l) a i u m =
          clientCountAt (calculateMetrics l2) a i u m ∧
        serverCountAt (calculateMetrics l) a i u m =
          serverCountAt (calculateMetrics l2) a i u m := by
  refine ⟨rfl, ?_⟩
  intro a i u m
  have hperm : (contrib l (a, i, u, m)).Perm (contrib l2 (a, i, u, m)) :=
    hp.filter _
  rcases counts_calculateMetrics l a i u m with ⟨c1, c2, c3⟩
  rcases counts_calculateMetrics l2 a i u m with ⟨d1, d2, d3⟩
  refine ⟨?_, ?_, ?_, ?_, ?_⟩
  · rw [pathsOf_mem_iff _ (treeNodup_calculateMetrics l),
      pathsOf_mem_iff _ (treeNodup_calculateMetrics l2),
      findMethod_isSome_iff, findMethod_isSome_iff]
    constructor
    · rintro ⟨r, hr, hcon⟩; exact ⟨r, hp.mem_iff.1 hr, hcon⟩
    · rintro ⟨r, hr, hcon⟩; exact ⟨r, hp.mem_iff.2 hr, hcon⟩
  · intro sc
    rw [statusCountAt_calculateMetrics, statusCountAt_calculateMetrics,
      hperm.countP_eq]
  · rw [c1, d1, hperm.length_eq]
  · rw [c2, d2, hperm.length_eq]
  · rw [c3, d3, hperm.length_eq]

/-- C8 witness: the permutation law applied to scenario A and a
reordering of it. -/
theorem calculateMetrics_perm_spec_witness :
    calculateMetrics scenarioA = calculateMetrics scenarioA ∧
      ∀ a i u m : String,
        ((a, i, u, m) ∈ pathsOf (calculateMetrics scenarioA) ↔
          (a, i, u, m) ∈ pathsOf
            (calculateMetrics [scenarioRecordA5, scenarioRecordA, scenarioRecordA])) ∧
        (∀ sc : ℤ, statusCountAt (calculateMetrics scenarioA) a i u m sc =
          statusCountAt
            (calculateMetrics [scenarioRecordA5, scenarioRecordA, scenarioRecordA])
            a i u m sc) ∧
        contentCountAt (calculateMetrics scenarioA) a i u m =
          contentCountAt
            (calculateMetrics [scenarioRecordA5, scenarioRecordA, scenarioRecordA])
            a i u m ∧
        clientCountAt (calculateMetrics scenarioA) a i u m =
          clientCountAt
            (calculateMetrics [scenarioRecordA5, scenarioRecordA, scenarioRecordA])
            a i u m ∧
        serverCountAt (calculateMetrics scenarioA) a i u m =
          serverCountAt
            (calculateMetrics [scenarioRecordA5, scenarioRecordA, scenarioRecordA])
            a i u m :=
  calculateMetrics_perm_spec scenarioA
    [scenarioRecordA5, scenarioRecordA, scenarioRecordA] (by decide)

/-! ### The sketch on empty input -/

/-- C7: on an empty sketch (no `Insert` performed) `Query(φ)` returns 0.0
for every quantile `φ` and every tolerance, and `Count()` returns 0. -/
theorem gkQuery_empty_spec :
    (∀ eps q : ℚ, gkQuery eps q [] = 0) ∧ gkCount ([] : GKList) = 0 :=
  ⟨fun _ _ => rfl, rfl⟩

/-! ### The value metrics path -/

/-- C5: under successful construction, the value metrics path emits
exactly one gauge observation per record, whose metric name is derived
by normalization from `(origin, name)`, whose labels carry the six fixed
record fields `origin, deployment, job, index, ip, unit` (under the
label names `origin, bosh_deployment, bosh_job_name, bosh_job_id,
bosh_job_ip, unit`) plus one label per caller-supplied tag, and whose
value is the metric's value. -/
theorem valueMetricsCollect_spec (normalize nd no : String → String)
    (ok : GaugeObs → Bool) (ns env : String) (vms : List ValueMetric)
    (hok : ∀ vm ∈ vms, ok (buildGauge normalize nd no ns env vm) = true) :
    valueMetricsCollect normalize nd no ok ns env vms =
        vms.map (buildGauge normalize nd no ns env) ∧
      ∀ vm : ValueMetric,
        (buildGauge normalize nd no ns env vm).name =
            fqName ns value_metrics_subsystem
              (normalize vm.Origin ++ "_" ++ normalize vm.Name) ∧
          (buildGauge normalize nd no ns env vm).labelNames =
            valueMetricLabelNames ++ vm.Tags.map (fun p => normalize p.1) ∧
          (buildGauge normalize nd no ns env vm).labelValues =
            [vm.Origin, vm.Deployment, vm.Job, vm.Index, vm.IP, vm.Unit] ++
              vm.Tags.map (fun p => p.2) ∧
          (buildGauge normalize nd no ns env vm).value = vm.Value := by
  constructor
  · induction vms with
    | nil => rfl
    | cons vm rest ih =>
        have h1 : ok (buildGauge normalize nd no ns env vm) = true :=
          hok vm (by simp)
        have h2 := ih fun x hx => hok x (by simp [hx])
        simp only [valueMetricsCollect] at h2 ⊢
        rw [List.flatMap_cons]
        simp [h1, h2]
  · intro vm
    exact ⟨rfl, rfl, rfl, rfl⟩

/-- C5 witness: one scenario C record, with identity normalizers and an
accepting exposition boundary. -/
theorem valueMetricsCollect_spec_witness :
    valueMetricsCollect (fun s => s) (fun s => s) (fun s => s) (fun _ => true)
        "firehose" "prod" [scenarioC] =
        [scenarioC].map (buildGauge (fun s => s) (fun s => s) (fun s => s)
          "firehose" "prod") ∧
      ∀ vm : ValueMetric,
        (buildGauge (fun s => s) (fun s => s) (fun s => s) "firehose" "prod"
              vm).name =
            fqName "firehose" value_metrics_subsystem
              (vm.Origin ++ "_" ++ vm.Name) ∧
          (buildGauge (fun s => s) (fun s => s) (fun s => s) "firehose" "prod"
              vm).labelNames =
            valueMetricLabelNames ++ vm.Tags.map (fun p => p.1) ∧
          (buildGauge (fun s => s) (fun s => s) (fun s => s) "firehose" "prod"
              vm).labelValues =
            [vm.Origin, vm.Deployment, vm.Job, vm.Index, vm.IP, vm.Unit] ++
              vm.Tags.map (fun p => p.2) ∧
          (buildGauge (fun s => s) (fun s => s) (fun s => s) "firehose" "prod"
              vm).value = vm.Value :=
  valueMetricsCollect_spec (fun s => s) (fun s => s) (fun s => s) (fun _ => true)
    "firehose" "prod" [scenarioC] (fun _ _ => rfl)

/-- C6: when the exposition boundary rejects the observation built for
one record, exactly that record is dropped: the batch around it emits
the same observations as if the record were split out. -/
theorem valueMetricsCollect_drop_spec (normalize nd no : String → String)
    (ok : GaugeObs → Bool) (ns env : String) (l1 l2 : List ValueMetric)
    (bad : ValueMetric)
    (hbad : ok (buildGauge normalize nd no ns env bad) = false) :
    valueMetricsCollect normalize nd no ok ns env (l1 ++ bad :: l2) =
      valueMetricsCollect normalize nd no ok ns env l1 ++
        valueMetricsCollect normalize nd no ok ns env l2 := by
  unfold valueMetricsCollect
  rw [List.flatMap_append, List.flatMap_cons]
  simp [hbad]

/-- C6 witness: a rejecting boundary drops the single bad record and the
rest of the batch is emitted unchanged. -/
theorem valueMetricsCollect_drop_spec_witness :
    valueMetricsCollect (fun s => s) (fun s => s) (fun s => s) (fun _ => false)
        "firehose" "prod" ([scenarioC] ++ scenarioC :: []) =
      valueMetricsCollect (fun s => s) (fun s => s) (fun s => s) (fun _ => false)
          "firehose" "prod" [scenarioC] ++
        valueMetricsCollect (fun s => s) (fun s => s) (fun s => s)
          (fun _ => false) "firehose" "prod" [] :=
  valueMetricsCollect_drop_spec (fun s => s) (fun s => s) (fun s => s)
    (fun _ => false) "firehose" "prod" [scenarioC] [] scenarioC rfl

/-! ### Read-only emission -/

theorem methodReportSt_eq (ns a i u mk : String) (meth : Method) :
    methodReportSt ns a i u mk meth = (methodReport ns a i u mk meth, meth) := by
  unfold methodReportSt methodReport reportResponseSizeSt
    reportClientRequestDurationSt reportServerRequestDurationSt
  have hfold : ∀ scs : List (ℤ × ℤ),
      scs.foldr
        (fun p (acc : List HMetric × List (ℤ × ℤ)) =>
          (reportRequestTotal p.2 a i u mk (intToDecimalString p.1) ns :: acc.1,
           p :: acc.2))
        ([], []) =
      (scs.map fun p =>
        reportRequestTotal p.2 a i u mk (intToDecimalString p.1) ns, scs) := by
    intro scs
    induction scs with
    | nil => rfl
    | cons p ps ih => simp [ih]
  rw [hfold]
  rfl

theorem uriReportSt_eq (ns a i u : String) (uri : Uri) :
    uriReportSt ns a i u uri =
      (uri.Methods.flatMap fun pm => methodReport ns a i u pm.1 pm.2, uri) := by
  have hfold : ∀ ms : List (String × Method),
      ms.foldr
        (fun pm (acc : List HMetric × List (String × Method)) =>
          ((methodReportSt ns a i u pm.1 pm.2).1 ++ acc.1,
           (pm.1, (methodReportSt ns a i u pm.1 pm.2).2) :: acc.2))
        ([], []) =
      (ms.flatMap fun pm => methodReport ns a i u pm.1 pm.2, ms) := by
    intro ms
    induction ms with
    | nil => rfl
    | cons pm rest ih =>
        rw [List.foldr_cons, ih, methodReportSt_eq]
        simp
  unfold uriReportSt
  rw [hfold]

theorem instanceReportSt_eq (ns a i : String) (inst : Instance) :
    instanceReportSt ns a i inst =
      (inst.Uris.flatMap fun pu =>
        pu.2.Methods.flatMap fun pm => methodReport ns a i pu.1 pm.1 pm.2,
       inst) := by
  have hfold : ∀ us : List (String × Uri),
      us.foldr
        (fun pu (acc : List HMetric × List (String × Uri)) =>
          ((uriReportSt ns a i pu.1 pu.2).1 ++ acc.1,
           (pu.1, (uriReportSt ns a i pu.1 pu.2).2) :: acc.2))
        ([], []) =
      (us.flatMap fun pu =>
        pu.2.Methods.flatMap fun pm => methodReport ns a i pu.1 pm.1 pm.2,
       us) := by
    intro us
    induction us with
    | nil => rfl
    | cons pu rest ih =>
        rw [List.foldr_cons, ih, uriReportSt_eq]
        simp
  unfold instanceReportSt
  rw [hfold]

theorem applicationReportSt_eq (ns a : String) (app : Application) :
    applicationReportSt ns a app =
      (app.Instances.flatMap fun pi =>
        pi.2.Uris.flatMap fun pu =>
          pu.2.Methods.flatMap fun pm => methodReport ns a pi.1 pu.1 pm.1 pm.2,
       app) := by
  have hfold : ∀ is : List (String × Instance),
      is.foldr
        (fun pi (acc : List HMetric × List (String × Instance)) =>
          ((instanceReportSt ns a pi.1 pi.2).1 ++ acc.1,
           (pi.1, (instanceReportSt ns a pi.1 pi.2).2) :: acc.2))
        ([], []) =
      (is.flatMap fun pi =>
        pi.2.Uris.flatMap fun pu =>
          pu.2.Methods.flatMap fun pm => methodReport ns a pi.1 pu.1 pm.1 pm.2,
       is) := by
    intro is
    induction is with
    | nil => rfl
    | cons pi rest ih =>
        rw [List.foldr_cons, ih, instanceReportSt_eq]
        simp
  unfold applicationReportSt
  rw [hfold]

theorem reportMetricsSt_eq (ns : String) (t : Applications) :
    reportMetricsSt ns t = (reportMetrics ns t, t) := by
  unfold reportMetricsSt reportMetrics
  induction t with
  | nil => rfl
  | cons pa rest ih =>
      rw [List.foldr_cons, ih, applicationReportSt_eq]
      simp

theorem valueMetricsCollectSt_eq (normalize nd no : String → String)
    (ok : GaugeObs → Bool) (ns env : String) (vms : List ValueMetric) :
    valueMetricsCollectSt normalize nd no ok ns env vms =
      (valueMetricsCollect normalize nd no ok ns env vms, vms) := by
  unfold valueMetricsCollectSt valueMetricsCollect
  induction vms with
  | nil => rfl
  | cons vm rest ih =>
      rw [List.foldr_cons, ih]
      simp

/-- C9: both emission walks are read-only: threading the aggregation
tree (resp. the value metric list) through the walk as explicit state
returns it unchanged, while emitting exactly the observations of the
pure emission functions. -/
theorem emission_read_only_spec (ns : String) (t : Applications)
    (normalize nd no : String → String) (ok : GaugeObs → Bool) (env : String)
    (vms : List ValueMetric) :
    (reportMetricsSt ns t).2 = t ∧
      (reportMetricsSt ns t).1 = reportMetrics ns t ∧
      (valueMetricsCollectSt normalize nd no ok ns env vms).2 = vms ∧
      (valueMetricsCollectSt normalize nd no ok ns env vms).1 =
        valueMetricsCollect normalize nd no ok ns env vms := by
  rw [reportMetricsSt_eq, valueMetricsCollectSt_eq]
  exact ⟨rfl, rfl, rfl, rfl⟩

/-! ### Per-leaf emission -/

theorem obsLeaf_methodReport (ns a i u mk : String) (meth : Method) :
    ∀ ob ∈ methodReport ns a i u mk meth, obsLeaf ob = [a, i, u, mk] := by
  intro ob hob
  unfold methodReport at hob
  simp only [List.cons_append, List.nil_append, List.mem_cons,
    List.mem_map] at hob
  rcases hob with rfl | rfl | rfl | ⟨p, hp, rfl⟩ <;> rfl

theorem filter_flatMap_single {α : Type} (p : HMetric → Bool)
    (f : String × α → List HMetric) {l : List (String × α)} {k : String} {x : α}
    (hnd : keysNodup l) (hmem : (k, x) ∈ l)
    (hother : ∀ q ∈ l, q.1 ≠ k → (f q).filter p = []) :
    (l.flatMap f).filter p = (f (k, x)).filter p := by
  induction l with
  | nil => cases hmem
  | cons q rest ih =>
      unfold keysNodup at hnd
      simp only [List.map_cons, List.nodup_cons] at hnd
      rw [List.flatMap_cons, List.filter_append]
      rcases List.mem_cons.1 hmem with h1 | h1
      · have hrest : (rest.flatMap f).filter p = [] := by
          rw [List.filter_eq_nil_iff]
          intro ob hob
          rcases List.mem_flatMap.1 hob with ⟨q2, hq2, hob2⟩
          have hq2ne : q2.1 ≠ k := by
            intro he
            apply hnd.1
            have hqk : q.1 = k := by rw [← h1]
            rw [hqk, ← he]
            exact List.mem_map_of_mem Prod.fst hq2
          have hfq2 := hother q2 (by simp [hq2]) hq2ne
          rw [List.filter_eq_nil_iff] at hfq2
          exact hfq2 ob hob2
        rw [hrest, ← h1]
        simp
      · have hq : (f q).filter p = [] := by
          refine hother q (by simp) ?_
          intro he
          apply hnd.1
          rw [he]
          exact List.mem_map_of_mem Prod.fst h1
        rw [hq]
        simp only [List.nil_append]
        exact ih hnd.2 h1 fun q2 hq2 => hother q2 (by simp [hq2])

/-- C4: for every leaf `(a, i, u, m)` of the aggregation tree, the
emission walk produces, among all observations carrying that leaf's
labels, exactly three summaries — response size, client duration and
server duration, each with the sketch's count, the sum of its retained
samples, and the three quantile estimates at 0.50, 0.90, 0.99 — followed
by exactly one counter per status code entry, with the decimal status
code as fifth label and the per-status count as value. -/
theorem reportMetrics_leaf_spec (ns : String) (t : Applications)
    (a i u m : String) (meth : Method) (hnd : treeNodup t)
    (hfind : findMethod t a i u m = some meth) :
    (reportMetrics ns t).filter (fun ob => decide (obsLeaf ob = [a, i, u, m])) =
      [HMetric.summary (fqName ns http_start_stop_subsystem "response_size_bytes")
          (gkCount meth.ContentLength) (sampleSum meth.ContentLength)
          (summaryQuantiles meth.ContentLength) [a, i, u, m],
        HMetric.summary
          (fqName ns http_start_stop_subsystem
            "client_request_duration_nanoseconds")
          (gkCount meth.ClientDuration) (sampleSum meth.ClientDuration)
          (summaryQuantiles meth.ClientDuration) [a, i, u, m],
        HMetric.summary
          (fqName ns http_start_stop_subsystem
            "server_request_duration_nanoseconds")
          (gkCount meth.ServerDuration) (sampleSum meth.ServerDuration)
          (summaryQuantiles meth.ServerDuration) [a, i, u, m]] ++
        meth.StatusCodes.map fun p =>
          HMetric.counter (fqName ns http_start_stop_subsystem "request_total")
            p.2 [a, i, u, m, intToDecimalString p.1] := by
  unfold findMethod at hfind
  rcases h1 : alookup a t with _ | app
  · rw [h1] at hfind; simp at hfind
  rw [h1] at hfind
  simp only [Option.some_bind] at hfind
  rcases h2 : alookup i app.Instances with _ | inst
  · rw [h2] at hfind; simp at hfind
  rw [h2] at hfind
  simp only [Option.some_bind] at hfind
  rcases h3 : alookup u inst.Uris with _ | uri
  · rw [h3] at hfind; simp at hfind
  rw [h3] at hfind
  simp only [Option.some_bind] at hfind
  have hmemA : (a, app) ∈ t := alookup_mem h1
  have hA := hnd.2 (a, app) hmemA
  have hmemI : (i, inst) ∈ app.Instances := alookup_mem h2
  have hI := hA.2 (i, inst) hmemI
  have hmemU : (u, uri) ∈ inst.Uris := alookup_mem h3
  have hU := hI.2 (u, uri) hmemU
  have hmemM : (m, meth) ∈ uri.Methods := alookup_mem hfind
  have step1 : (reportMetrics ns t).filter
      (fun ob => decide (obsLeaf ob = [a, i, u, m])) =
      ((app.Instances.flatMap fun pi =>
        pi.2.Uris.flatMap fun pu =>
          pu.2.Methods.flatMap fun pm =>
            methodReport ns a pi.1 pu.1 pm.1 pm.2).filter
        (fun ob => decide (obsLeaf ob = [a, i, u, m]))) := by
    unfold reportMetrics
    refine filter_flatMap_single _ _ hnd.1 hmemA ?_
    intro q hq hne
    rw [List.filter_eq_nil_iff]
    intro ob hob
    rcases List.mem_flatMap.1 hob with ⟨pi, hpi, hob⟩
    rcases List.mem_flatMap.1 hob with ⟨pu, hpu, hob⟩
    rcases List.mem_flatMap.1 hob with ⟨pm, hpm, hob⟩
    have hsh := obsLeaf_methodReport ns q.1 pi.1 pu.1 pm.1 pm.2 ob hob
    simp [hsh, hne]
  have step2 : ((app.Instances.flatMap fun pi =>
      pi.2.Uris.flatMap fun pu =>
        pu.2.Methods.flatMap fun pm =>
          methodReport ns a pi.1 pu.1 pm.1 pm.2).filter
        (fun ob => decide (obsLeaf ob = [a, i, u, m]))) =
      ((inst.Uris.flatMap fun pu =>
        pu.2.Methods.flatMap fun pm =>
          methodReport ns a i pu.1 pm.1 pm.2).filter
        (fun ob => decide (obsLeaf ob = [a, i, u, m]))) := by
    refine filter_flatMap_single _ _ hA.1 hmemI ?_
    intro q hq hne
    rw [List.filter_eq_nil_iff]
    intro ob hob
    rcases List.mem_flatMap.1 hob with ⟨pu, hpu, hob⟩
    rcases List.mem_flatMap.1 hob with ⟨pm, hpm, hob⟩
    have hsh := obsLeaf_methodReport ns a q.1 pu.1 pm.1 pm.2 ob hob
    simp [hsh, hne]
  have step3 : ((inst.Uris.flatMap fun pu =>
      pu.2.Methods.flatMap fun pm =>
        methodReport ns a i pu.1 pm.1 pm.2).filter
        (fun ob => decide (obsLeaf ob = [a, i, u, m]))) =
      ((uri.Methods.flatMap fun pm =>
        methodReport ns a i u pm.1 pm.2).filter
        (fun ob => decide (obsLeaf ob = [a, i, u, m]))) := by
    refine filter_flatMap_single _ _ hI.1 hmemU ?_
    intro q hq hne
    rw [List.filter_eq_nil_iff]
    intro ob hob
    rcases List.mem_flatMap.1 hob with ⟨pm, hpm, hob⟩
    have hsh := obsLeaf_methodReport ns a i q.1 pm.1 pm.2 ob hob
    simp [hsh, hne]
  have step4 : ((uri.Methods.flatMap fun pm =>
      methodReport ns a i u pm.1 pm.2).filter
        (fun ob => decide (obsLeaf ob = [a, i, u, m]))) =
      ((methodReport ns a i u m meth).filter
        (fun ob => decide (obsLeaf ob = [a, i, u, m]))) := by
    refine filter_flatMap_single _ _ hU.1 hmemM ?_
    intro q hq hne
    rw [List.filter_eq_nil_iff]
    intro ob hob
    have hsh := obsLeaf_methodReport ns a i u q.1 q.2 ob hob
    simp [hsh, hne]
  rw [step1, step2, step3, step4]
  have hall : ∀ ob ∈ methodReport ns a i u m meth,
      (fun ob => decide (obsLeaf ob = [a, i, u, m])) ob = true := by
    intro ob hob
    simp [obsLeaf_methodReport ns a i u m meth ob hob]
  exact List.filter_eq_self.2 hall

/-- C4 witness: the per-leaf emission block of a one-record tree. -/
theorem reportMetrics_leaf_spec_witness :
    (reportMetrics "fh" (calculateMetrics [scenarioRecordA])).filter
      (fun ob => decide (obsLeaf ob = ["a1", "i1", "/x", "GET"])) =
      [HMetric.summary
          (fqName "fh" http_start_stop_subsystem "response_size_bytes")
          (gkCount ((findMethod (calculateMetrics [scenarioRecordA]) "a1" "i1"
              "/x" "GET").getD emptyMethod).ContentLength)
          (sampleSum ((findMethod (calculateMetrics [scenarioRecordA]) "a1" "i1"
              "/x" "GET").getD emptyMethod).ContentLength)
          (summaryQuantiles ((findMethod (calculateMetrics [scenarioRecordA])
              "a1" "i1" "/x" "GET").getD emptyMethod).ContentLength)
          ["a1", "i1", "/x", "GET"],
        HMetric.summary
          (fqName "fh" http_start_stop_subsystem
            "client_request_duration_nanoseconds")
          (gkCount ((findMethod (calculateMetrics [scenarioRecordA]) "a1" "i1"
              "/x" "GET").getD emptyMethod).ClientDuration)
          (sampleSum ((findMethod (calculateMetrics [scenarioRecordA]) "a1" "i1"
              "/x" "GET").getD emptyMethod).ClientDuration)
          (summaryQuantiles ((findMethod (calculateMetrics [scenarioRecordA])
              "a1" "i1" "/x" "GET").getD emptyMethod).ClientDuration)
          ["a1", "i1", "/x", "GET"],
        HMetric.summary
          (fqName "fh" http_start_stop_subsystem
            "server_request_duration_nanoseconds")
          (gkCount ((findMethod (calculateMetrics [scenarioRecordA]) "a1" "i1"
              "/x" "GET").getD emptyMethod).ServerDuration)
          (sampleSum ((findMethod (calculateMetrics [scenarioRecordA]) "a1" "i1"
              "/x" "GET").getD emptyMethod).ServerDuration)
          (summaryQuantiles ((findMethod (calculateMetrics [scenarioRecordA])
              "a1" "i1" "/x" "GET").getD emptyMethod).ServerDuration)
          ["a1", "i1", "/x", "GET"]] ++
        ((findMethod (calculateMetrics [scenarioRecordA]) "a1" "i1" "/x"
            "GET").getD emptyMethod).StatusCodes.map fun p =>
          HMetric.counter
            (fqName "fh" http_start_stop_subsystem "request_total") p.2
            ["a1", "i1", "/x", "GET", intToDecimalString p.1] :=
  reportMetrics_leaf_spec "fh" (calculateMetrics [scenarioRecordA]) "a1" "i1"
    "/x" "GET" _ (by decide) (option_eq_some_getD _ emptyMethod (by decide))

/-! ### Decimal rendering correctness -/

theorem charDigitVal_digitChar (k : ℕ) (h : k < 10) :
    charDigitVal (digitChar k) = k := by
  interval_cases k <;> decide

theorem digitChar_ne_dash (k : ℕ) (h : k < 10) :
    digitChar k ≠ Char.ofNat 45 := by
  interval_cases k <;> decide

theorem decimalValChars_append_digit (ds : List Char) (c : Char) :
    decimalValChars (ds ++ [c]) = 10 * decimalValChars ds + charDigitVal c := by
  unfold decimalValChars
  rw [List.foldl_append]
  rfl

theorem natDecimalDigitsAux_spec (fuel : ℕ) :
    ∀ n, n < fuel →
      decimalValChars (natDecimalDigitsAux fuel n) = n ∧
        natDecimalDigitsAux fuel n ≠ [] ∧
        ∀ c ∈ natDecimalDigitsAux fuel n, ∃ k, k < 10 ∧ c = digitChar k := by
  induction fuel with
  | zero => intro n h; omega
  | succ fuel ih =>
      intro n h
      by_cases h10 : n < 10
      · simp only [natDecimalDigitsAux, if_pos h10]
        refine ⟨?_, by simp, ?_⟩
        · show 10 * 0 + charDigitVal (digitChar n) = n
          rw [charDigitVal_digitChar n h10]
          omega
        · intro c hc
          simp at hc
          exact ⟨n, h10, hc⟩
      · have hdiv : n / 10 < fuel := by
          have := Nat.div_lt_self (by omega : 0 < n) (by omega : 1 < 10)
          omega
        rcases ih (n / 10) hdiv with ⟨hval, hne, hdig⟩
        simp only [natDecimalDigitsAux, if_neg h10]
        refine ⟨?_, by simp, ?_⟩
        · rw [decimalValChars_append_digit, hval,
            charDigitVal_digitChar _ (Nat.mod_lt _ (by omega))]
          omega
        · intro c hc
          rcases List.mem_append.1 hc with hc | hc
          · exact hdig c hc
          · simp at hc
            exact ⟨n % 10, Nat.mod_lt _ (by omega), hc⟩

theorem decimalVal_natToDecimalString (n : ℕ) :
    decimalVal (natToDecimalString n) = (n : ℤ) := by
  rcases natDecimalDigitsAux_spec (n + 1) n (by omega) with ⟨hval, hne, hdig⟩
  unfold decimalVal natToDecimalString
  rcases hd : natDecimalDigitsAux (n + 1) n with _ | ⟨c, rest⟩
  · exact absurd hd hne
  · rw [hd] at hval hdig
    have hcd := hdig c (by simp)
    rcases hcd with ⟨k, hk, hck⟩
    simp only
    rw [if_neg (by rw [hck]; exact digitChar_ne_dash k hk)]
    rw [hval]

theorem decimalVal_intToDecimalString (z : ℤ) :
    decimalVal (intToDecimalString z) = z := by
  cases z with
  | ofNat n => exact decimalVal_natToDecimalString n
  | negSucc n =>
      rcases natDecimalDigitsAux_spec (n + 2) (n + 1) (by omega) with
        ⟨hval, hne, hdig⟩
      unfold intToDecimalString natToDecimalString decimalVal
      have hdata : ("-" ++ String.mk (natDecimalDigitsAux (n + 2) (n + 1))).data =
          Char.ofNat 45 :: natDecimalDigitsAux (n + 2) (n + 1) := rfl
      rw [hdata]
      simp only [if_pos rfl]
      rw [hval]
      simp [Int.negSucc_eq]

/-! ### Constant labels and status code rendering -/

/-- C10: every gauge emitted by the value metrics collector carries the
constant label `environment` with the collector's environment string;
every counter emitted by the HTTP start-stop walk belongs to some leaf
and carries, as its fifth label, the base-10 decimal rendering of the
int32 status code keying its count — `decimalVal` certifies that
`intToDecimalString` is the base-10 rendering. -/
theorem constant_labels_spec (normalize nd no : String → String)
    (ok : GaugeObs → Bool) (ns env : String) (vms : List ValueMetric)
    (t : Applications) :
    (∀ g ∈ valueMetricsCollect normalize nd no ok ns env vms,
        g.constLabels = [("environment", env)]) ∧
      (∀ ob ∈ reportMetrics ns t, ∀ name value lv,
        ob = HMetric.counter name value lv →
          ∃ (a i u mk : String) (meth : Method) (sc : ℤ),
            (sc, value) ∈ meth.StatusCodes ∧
            (∃ pa ∈ t, ∃ pi ∈ pa.2.Instances, ∃ pu ∈ pi.2.Uris,
              (mk, meth) ∈ pu.2.Methods ∧ pa.1 = a ∧ pi.1 = i ∧ pu.1 = u) ∧
            name = fqName ns http_start_stop_subsystem "request_total" ∧
            lv = [a, i, u, mk, intToDecimalString sc]) ∧
      (∀ z : ℤ, decimalVal (intToDecimalString z) = z) := by
  refine ⟨?_, ?_, decimalVal_intToDecimalString⟩
  · intro g hg
    rcases List.mem_flatMap.1 hg with ⟨vm, hvm, hgin⟩
    by_cases hok : ok (buildGauge normalize nd no ns env vm) = true
    · simp only [hok, if_true] at hgin
      simp at hgin
      rw [hgin]
      rfl
    · simp only [Bool.not_eq_true] at hok
      simp [hok] at hgin
  · intro ob hob name value lv hshape
    rcases List.mem_flatMap.1 hob with ⟨pa, hpa, hob⟩
    rcases List.mem_flatMap.1 hob with ⟨pi, hpi, hob⟩
    rcases List.mem_flatMap.1 hob with ⟨pu, hpu, hob⟩
    rcases List.mem_flatMap.1 hob with ⟨pm, hpm, hob⟩
    unfold methodReport at hob
    rcases List.mem_append.1 hob with hob | hob
    · rw [hshape] at hob
      simp [reportResponseSize, reportClientRequestDuration,
        reportServerRequestDuration] at hob
    · rcases List.mem_map.1 hob with ⟨p, hp, heq⟩
      rw [hshape] at heq
      unfold reportRequestTotal at heq
      rcases HMetric.counter.inj heq with ⟨hn, hv, hl⟩
      refine ⟨pa.1, pi.1, pu.1, pm.1, pm.2, p.1, ?_, ?_, hn.symm, hl.symm⟩
      · rw [← hv]
        simpa using hp
      · exact ⟨pa, hpa, pi, hpi, pu, hpu, by simpa using hpm, rfl, rfl, rfl⟩

/-- C10 witness: the environment label of a concrete scenario C gauge
and the decimal rendering law at a concrete negative status code. -/
theorem constant_labels_spec_witness :
    (buildGauge (fun s => s) (fun s => s) (fun s => s) "fh" "prod"
        scenarioC).constLabels = [("environment", "prod")] ∧
      decimalVal (intToDecimalString (-207)) = -207 :=
  ⟨(constant_labels_spec (fun s => s) (fun s => s) (fun s => s) (fun _ => true)
      "fh" "prod" [scenarioC] []).1 _ (by simp [valueMetricsCollect]),
    (constant_labels_spec (fun s => s) (fun s => s) (fun s => s) (fun _ => true)
      "fh" "prod" [scenarioC] []).2.2 (-207)⟩

/-! ### Counting inserted values -/

theorem countLT_cons (v w : ℚ) (S : List ℚ) :
    countLT (v :: S) w = countLT S w + if v < w then 1 else 0 := by
  unfold countLT
  rw [List.filter_cons]
  by_cases h : v < w <;> simp [h]

theorem countLE_cons (v w : ℚ) (S : List ℚ) :
    countLE (v :: S) w = countLE S w + if v ≤ w then 1 else 0 := by
  unfold countLE
  rw [List.filter_cons]
  by_cases h : v ≤ w <;> simp [h]

theorem countLT_mono (S : List ℚ) {v w : ℚ} (h : v ≤ w) :
    countLT S v ≤ countLT S w := by
  induction S with
  | nil => simp [countLT]
  | cons x S ih =>
      rw [countLT_cons, countLT_cons]
      by_cases hx : x < v
      · rw [if_pos hx, if_pos (lt_of_lt_of_le hx h)]
        omega
      · rw [if_neg hx]
        split_ifs <;> omega

theorem countLE_mono (S : List ℚ) {v w : ℚ} (h : v ≤ w) :
    countLE S v ≤ countLE S w := by
  induction S with
  | nil => simp [countLE]
  | cons x S ih =>
      rw [countLE_cons, countLE_cons]
      by_cases hx : x ≤ v
      · rw [if_pos hx, if_pos (le_trans hx h)]
        omega
      · rw [if_neg hx]
        split_ifs <;> omega

theorem countLE_lt_of_lt (S : List ℚ) {v w : ℚ} (h : v < w) :
    countLE S v ≤ countLT S w := by
  induction S with
  | nil => simp [countLE, countLT]
  | cons x S ih =>
      rw [countLE_cons, countLT_cons]
      by_cases hx : x ≤ v
      · rw [if_pos hx, if_pos (lt_of_le_of_lt hx h)]
        omega
      · rw [if_neg hx]
        split_ifs <;> omega

theorem countLT_le_countLE (S : List ℚ) (v : ℚ) :
    countLT S v ≤ countLE S v := by
  induction S with
  | nil => simp [countLT, countLE]
  | cons x S ih =>
      rw [countLT_cons, countLE_cons]
      by_cases hx : x < v
      · rw [if_pos hx, if_pos (le_of_lt hx)]
        omega
      · rw [if_neg hx]
        split_ifs <;> omega

theorem countLE_le_length (S : List ℚ) (v : ℚ) : countLE S v ≤ S.length := by
  unfold countLE
  exact List.length_filter_le _ _

theorem countLT_le_length (S : List ℚ) (v : ℚ) : countLT S v ≤ S.length := by
  unfold countLT
  exact List.length_filter_le _ _

theorem countLT_lt_countLE_of_mem {S : List ℚ} {v : ℚ} (h : v ∈ S) :
    countLT S v < countLE S v := by
  induction S with
  | nil => cases h
  | cons x S ih =>
      rw [countLT_cons, countLE_cons]
      rcases List.mem_cons.1 h with h1 | h1
      · rw [← h1, if_neg (lt_irrefl v), if_pos le_rfl]
        have := countLT_le_countLE S v
        omega
      · have := ih h1
        by_cases hx : x < v
        · rw [if_pos hx, if_pos (le_of_lt hx)]
          omega
        · rw [if_neg hx]
          split_ifs <;> omega

theorem countLT_reverse (S : List ℚ) (v : ℚ) :
    countLT S.reverse v = countLT S v := by
  unfold countLT
  rw [List.filter_reverse, List.length_reverse]

theorem countLE_reverse (S : List ℚ) (v : ℚ) :
    countLE S.reverse v = countLE S v := by
  unfold countLE
  rw [List.filter_reverse, List.length_reverse]

/-! ### Raw insertion preserves the sketch invariant -/

theorem mem_insAux (band : ℕ) (v : ℚ) :
    ∀ l : GKList, ∀ e ∈ gkInsAux band v l,
      e = ⟨v, 1, band⟩ ∨ e = ⟨v, 1, 0⟩ ∨ e ∈ l := by
  intro l
  induction l with
  | nil =>
      intro e he
      simp [gkInsAux] at he
      simp [he]
  | cons x rest ih =>
      intro e he
      by_cases hv : v < x.v
      · simp only [gkInsAux, if_pos hv, List.mem_cons] at he
        rcases he with he | he | he
        · exact Or.inl (by simp [he])
        · exact Or.inr (Or.inr (by simp [he]))
        · exact Or.inr (Or.inr (by simp [he]))
      · simp only [gkInsAux, if_neg hv, List.mem_cons] at he
        rcases he with he | he
        · exact Or.inr (Or.inr (by simp [he]))
        · rcases ih e he with h | h | h
          · exact Or.inl h
          · exact Or.inr (Or.inl h)
          · exact Or.inr (Or.inr (by simp [h]))

theorem pairwise_insAux (band : ℕ) (v : ℚ) :
    ∀ l : GKList, l.Pairwise (fun x y => x.v ≤ y.v) →
      (gkInsAux band v l).Pairwise (fun x y => x.v ≤ y.v) := by
  intro l
  induction l with
  | nil => intro _; simp [gkInsAux]
  | cons x rest ih =>
      intro hp
      rw [List.pairwise_cons] at hp
      by_cases hv : v < x.v
      · simp only [gkInsAux, if_pos hv]
        rw [List.pairwise_cons]
        refine ⟨?_, by rw [List.pairwise_cons]; exact hp⟩
        intro y hy
        rcases List.mem_cons.1 hy with h1 | h1
        · rw [h1]; exact le_of_lt hv
        · exact le_trans (le_of_lt hv) (hp.1 y h1)
      · simp only [gkInsAux, if_neg hv]
        rw [List.pairwise_cons]
        refine ⟨?_, ih hp.2⟩
        intro y hy
        rcases mem_insAux band v rest y hy with h | h | h
        · rw [h]; exact le_of_not_lt hv
        · rw [h]; exact le_of_not_lt hv
        · exact hp.1 y h

theorem gBound_insAux (band : ℕ) (v : ℚ) {B : ℕ} (hband : 1 + band ≤ B)
    (l : GKList) (h : gBound B l) : gBound B (gkInsAux band v l) := by
  intro e he
  rcases mem_insAux band v l e he with h1 | h1 | h1
  · rw [h1]; exact ⟨le_refl 1, by dsimp only; omega⟩
  · rw [h1]; exact ⟨le_refl 1, by dsimp only; omega⟩
  · exact h e h1

theorem entOK_shift (v : ℚ) (S : List ℚ) :
    ∀ (l : GKList) (acc : ℕ), entOK S acc l → (∀ e ∈ l, v ≤ e.v) →
      entOK (v :: S) (acc + 1) l := by
  intro l
  induction l with
  | nil => intro acc _ _; trivial
  | cons e rest ih =>
      intro acc h hall
      rcases h with ⟨ha, hb, hm, hrest⟩
      have hev : v ≤ e.v := hall e (by simp)
      refine ⟨?_, ?_, by simp [hm], ?_⟩
      · rw [countLE_cons, if_pos hev]
        omega
      · rw [countLT_cons]
        split_ifs <;> omega
      · have := ih (acc + e.g) hrest fun x hx => hall x (by simp [hx])
        have harith : acc + e.g + 1 = acc + 1 + e.g := by omega
        rwa [harith] at this

theorem entOK_insAux (v : ℚ) (B : ℕ) (S : List ℚ) :
    ∀ (l : GKList) (acc : ℕ),
      entOK S acc l → l.Pairwise (fun x y => x.v ≤ y.v) → gBound B l →
      acc ≤ countLE S v → acc + gkCount l = S.length →
      entOK (v :: S) acc (gkInsAux (B - 1) v l) := by
  intro l
  induction l with
  | nil =>
      intro acc _ _ _ hle hcount
      simp only [gkInsAux]
      refine ⟨?_, ?_, by simp, trivial⟩
      · dsimp only
        rw [countLE_cons, if_pos le_rfl]
        omega
      · dsimp only
        rw [countLT_cons, if_neg (lt_irrefl v)]
        have : countLT S v ≤ S.length := countLT_le_length S v
        simp only [gkCount, List.map_nil, List.sum_nil] at hcount
        omega
  | cons e rest ih =>
      intro acc h hp hg hle hcount
      rcases h with ⟨ha, hb, hm, hrest⟩
      rw [List.pairwise_cons] at hp
      rcases hg e (by simp) with ⟨hg1, hg2⟩
      by_cases hv : v < e.v
      · simp only [gkInsAux, if_pos hv]
        have hB1 : 1 ≤ B := by omega
        refine ⟨?_, ?_, by simp, ?_⟩
        · dsimp only
          rw [countLE_cons, if_pos le_rfl]
          omega
        · dsimp only
          rw [countLT_cons, if_neg (lt_irrefl v)]
          have h1 : countLT S v ≤ countLT S e.v := countLT_mono S (le_of_lt hv)
          omega
        · have hall : ∀ x ∈ e :: rest, v ≤ x.v := by
            intro x hx
            rcases List.mem_cons.1 hx with h1 | h1
            · rw [h1]; exact le_of_lt hv
            · exact le_trans (le_of_lt hv) (hp.1 x h1)
          show entOK (v :: S) (acc + 1) (e :: rest)
          exact entOK_shift v S (e :: rest) acc ⟨ha, hb, hm, hrest⟩ hall
      · simp only [gkInsAux, if_neg hv]
        have hev : e.v ≤ v := le_of_not_lt hv
        refine ⟨?_, ?_, by simp [hm], ?_⟩
        · rw [countLE_cons]
          split_ifs <;> omega
        · rw [countLT_cons, if_neg hv]
          omega
        · refine ih (acc + e.g) hrest hp.2 (fun x hx => hg x (by simp [hx])) ?_ ?_
          · exact le_trans ha (countLE_mono S hev)
          · rw [gkCount_cons] at hcount
            omega

/-! ### Numeric bridges for thresholds and bands -/

theorem gkThreshold_def (eps : ℚ) (n : ℕ) :
    gkThreshold eps n = (⌊2 * eps * (n : ℚ)⌋).toNat := by
  unfold gkThreshold
  congr 1
  rw [show (2 * eps * (n : ℚ)) =
      ((2 * eps.num * (n : ℤ) : ℤ) : ℚ) / ((eps.den : ℕ) : ℚ) from ?_]
  · rw [Rat.floor_intCast_div_natCast]
  · symm
    calc ((2 * eps.num * (n : ℤ) : ℤ) : ℚ) / ((eps.den : ℕ) : ℚ)
        = 2 * ((eps.num : ℚ) / (eps.den : ℚ)) * (n : ℚ) := by
          push_cast
          ring
      _ = 2 * eps * (n : ℚ) := by rw [Rat.num_div_den]

theorem gkThreshold_cast_le (eps : ℚ) (n : ℕ) (heps : 0 ≤ eps) :
    (gkThreshold eps n : ℚ) ≤ 2 * eps * (n : ℚ) := by
  rw [gkThreshold_def]
  have hx : (0 : ℚ) ≤ 2 * eps * (n : ℚ) := by positivity
  have h1 : (0 : ℤ) ≤ ⌊2 * eps * (n : ℚ)⌋ := Int.floor_nonneg.2 hx
  have h2 : ((⌊2 * eps * (n : ℚ)⌋.toNat : ℕ) : ℚ) = ((⌊2 * eps * (n : ℚ)⌋ : ℤ) : ℚ) := by
    exact_mod_cast Int.toNat_of_nonneg h1
  rw [h2]
  exact_mod_cast Int.floor_le _

theorem gkThreshold_mono (eps : ℚ) (heps : 0 ≤ eps) {n1 n2 : ℕ} (h : n1 ≤ n2) :
    gkThreshold eps n1 ≤ gkThreshold eps n2 := by
  rw [gkThreshold_def, gkThreshold_def]
  apply Int.toNat_le_toNat
  apply Int.floor_le_floor
  have hn : (n1 : ℚ) ≤ (n2 : ℚ) := by exact_mod_cast h
  have h2 : (0 : ℚ) ≤ 2 * eps := by positivity
  exact mul_le_mul_of_nonneg_left hn h2

theorem gkMaxBand_mono (eps : ℚ) (heps : 0 ≤ eps) {n1 n2 : ℕ} (h : n1 ≤ n2) :
    gkMaxBand eps n1 ≤ gkMaxBand eps n2 := by
  unfold gkMaxBand
  have := gkThreshold_mono eps heps h
  omega

theorem gkMaxBand_pos (eps : ℚ) (n : ℕ) : 1 ≤ gkMaxBand eps n := by
  unfold gkMaxBand
  omega

theorem gkBand_eq (eps : ℚ) (n : ℕ) : gkBand eps n = gkMaxBand eps n - 1 := by
  unfold gkBand gkMaxBand gkThreshold
  omega

theorem gkMaxBand_cast_le (eps : ℚ) (n : ℕ) (heps : 0 ≤ eps) :
    (gkMaxBand eps n : ℚ) ≤ 2 * eps * (n : ℚ) + 1 := by
  unfold gkMaxBand
  rw [Nat.cast_max]
  apply max_le
  · linarith [gkThreshold_cast_le eps n heps]
  · have : (0 : ℚ) ≤ 2 * eps * (n : ℚ) := by positivity
    push_cast
    linarith

theorem ceilDiv_eq_ceil (a : ℤ) (b : ℕ) :
    ceilDiv a b = ⌈(a : ℚ) / ((b : ℕ) : ℚ)⌉ := by
  unfold ceilDiv
  rw [show ((-a) / (b : ℤ)) = ⌊((-a : ℤ) : ℚ) / ((b : ℕ) : ℚ)⌋ from
    (Rat.floor_intCast_div_natCast _ _).symm]
  rw [show (((-a : ℤ) : ℚ) / ((b : ℕ) : ℚ)) = -((a : ℚ) / ((b : ℕ) : ℚ)) from by
    push_cast
    ring]
  rw [Int.floor_neg]
  simp

theorem ceilDiv_num_den (q : ℚ) (n : ℕ) :
    ceilDiv (q.num * (n : ℤ)) q.den = ⌈q * (n : ℚ)⌉ := by
  rw [ceilDiv_eq_ceil]
  congr 1
  calc ((q.num * (n : ℤ) : ℤ) : ℚ) / ((q.den : ℕ) : ℚ)
      = ((q.num : ℚ) / (q.den : ℚ)) * (n : ℚ) := by
        push_cast
        ring
    _ = q * (n : ℚ) := by rw [Rat.num_div_den]

theorem gBound_mono {B B' : ℕ} (h : B ≤ B') {l : GKList} (hb : gBound B l) :
    gBound B' l :=
  fun e he => ⟨(hb e he).1, le_trans (hb e he).2 h⟩

/-! ### Insertion preserves the sketch invariant -/

theorem GKInv_rawInsert (eps v : ℚ) (S : List ℚ) (l : GKList) (heps : 0 ≤ eps)
    (h : GKInv eps S l) : GKInv eps (v :: S) (gkRawInsert eps v l) := by
  obtain ⟨hcount, hsort, hbound, hhead, hent⟩ := h
  unfold sortedVals at hsort
  rcases l with _ | ⟨e, rest⟩
  · have hS : S = [] := List.length_eq_zero.1 (by simpa [gkCount] using hcount.symm)
    subst hS
    refine ⟨by simp [gkRawInsert, gkCount], by simp [gkRawInsert, sortedVals], ?_, ?_, ?_⟩
    · intro x hx
      simp [gkRawInsert] at hx
      rw [hx]
      refine ⟨le_refl 1, ?_⟩
      simp only [List.length_cons, List.length_nil, Nat.zero_add]
      have := gkMaxBand_pos eps 1
      omega
    · simp [gkRawInsert, headOK]
    · simp only [gkRawInsert]
      refine ⟨?_, ?_, by simp, trivial⟩
      · dsimp only
        rw [countLE_cons, if_pos le_rfl]
        simp [countLE]
      · dsimp only
        rw [countLT_cons, if_neg (lt_irrefl v)]
        simp [countLT]
  · rcases hent with ⟨ha, hb, hm, hrest⟩
    rw [List.pairwise_cons] at hsort
    by_cases hv : v < e.v
    · simp only [gkRawInsert, if_pos hv]
      have hall : ∀ y ∈ e :: rest, v ≤ y.v := by
        intro y hy
        rcases List.mem_cons.1 hy with h1 | h1
        · rw [h1]; exact le_of_lt hv
        · exact le_trans (le_of_lt hv) (hsort.1 y h1)
      refine ⟨?_, ?_, ?_, ?_, ?_⟩
      · rw [gkCount_cons]
        simp only [List.length_cons]
        omega
      · unfold sortedVals
        rw [List.pairwise_cons]
        exact ⟨hall, List.pairwise_cons.2 hsort⟩
      · intro x hx
        rcases List.mem_cons.1 hx with h1 | h1
        · rw [h1]
          refine ⟨le_refl 1, ?_⟩
          have := gkMaxBand_pos eps (v :: S).length
          dsimp only
          omega
        · have hold := hbound x h1
          have hmono := gkMaxBand_mono eps heps
            (by simp : S.length ≤ (v :: S).length)
          exact ⟨hold.1, le_trans hold.2 hmono⟩
      · exact ⟨rfl, rfl⟩
      · refine ⟨?_, ?_, by simp, ?_⟩
        · dsimp only
          rw [countLE_cons, if_pos le_rfl]
          omega
        · dsimp only
          rw [countLT_cons, if_neg (lt_irrefl v)]
          have he0 : countLT S e.v = 0 := by
            have := hb
            rw [hhead.1, hhead.2] at this
            omega
          have : countLT S v ≤ countLT S e.v := countLT_mono S (le_of_lt hv)
          omega
        · show entOK (v :: S) (0 + 1) (e :: rest)
          exact entOK_shift v S (e :: rest) 0 ⟨ha, hb, hm, hrest⟩ hall
    · simp only [gkRawInsert, if_neg hv]
      have hev : e.v ≤ v := le_of_not_lt hv
      have hcnt : gkCount (e :: rest) = S.length := hcount
      have hband : gkBand eps (gkCount (e :: rest)) =
          gkMaxBand eps S.length - 1 := by
        rw [hcnt, gkBand_eq]
      rw [hband]
      refine ⟨?_, ?_, ?_, ?_, ?_⟩
      · rw [gkCount_cons, gkCount_insAux]
        rw [gkCount_cons] at hcount
        simp only [List.length_cons]
        omega
      · unfold sortedVals
        rw [List.pairwise_cons]
        refine ⟨?_, pairwise_insAux _ v rest hsort.2⟩
        intro y hy
        rcases mem_insAux _ v rest y hy with h1 | h1 | h1
        · rw [h1]; exact hev
        · rw [h1]; exact hev
        · exact hsort.1 y h1
      · intro x hx
        have hmono := gkMaxBand_mono eps heps
          (by simp : S.length ≤ (v :: S).length)
        rcases List.mem_cons.1 hx with h1 | h1
        · have hold := hbound x (by rw [h1]; simp)
          exact ⟨hold.1, le_trans hold.2 hmono⟩
        · have hB1 := gkMaxBand_pos eps S.length
          have hx2 := gBound_insAux (gkMaxBand eps S.length - 1) v
            (B := gkMaxBand eps S.length) (by omega) rest
            (fun y hy => hbound y (by simp [hy])) x h1
          exact ⟨hx2.1, le_trans hx2.2 hmono⟩
      · exact hhead
      · refine ⟨?_, ?_, by simp [hm], ?_⟩
        · rw [countLE_cons]
          split_ifs <;> omega
        · rw [countLT_cons, if_neg hv]
          omega
        · refine entOK_insAux v (gkMaxBand eps S.length) S rest (0 + e.g) hrest
            hsort.2 (fun y hy => hbound y (by simp [hy])) ?_ ?_
          · exact le_trans (by omega) (le_trans ha (countLE_mono S hev))
          · rw [gkCount_cons] at hcount
            omega

/-! ### Compression preserves the sketch invariant -/

theorem compressGo_map_sublist (thr : ℕ) (l : GKList) :
    ((gkCompressGo thr l).map (fun e => e.v)).Sublist (l.map (fun e => e.v)) := by
  induction l with
  | nil => simp [gkCompressGo]
  | cons c rest ih =>
    simp only [gkCompressGo]
    split
    · rename_i heq
      simp only [List.map_cons]
      exact (List.nil_sublist _).cons₂ _
    · rename_i x r2 heq
      rw [heq] at ih
      simp only [List.map_cons] at ih ⊢
      split
      · exact ih.cons _
      · exact ih.cons₂ _

theorem mem_compressGo_val (thr : ℕ) (l : GKList) {y : GKEntry}
    (hy : y ∈ gkCompressGo thr l) : ∃ z ∈ l, y.v = z.v := by
  have hsub := compressGo_map_sublist thr l
  have hmem : y.v ∈ l.map (fun e => e.v) :=
    hsub.subset (List.mem_map_of_mem _ hy)
  rcases List.mem_map.1 hmem with ⟨z, hz, hzv⟩
  exact ⟨z, hz, hzv.symm⟩

theorem sorted_compressGo (thr : ℕ) (l : GKList)
    (h : l.Pairwise (fun a b => a.v ≤ b.v)) :
    (gkCompressGo thr l).Pairwise (fun a b => a.v ≤ b.v) := by
  have h2 : (l.map (fun e => e.v)).Pairwise (fun a b => a ≤ b) :=
    (List.pairwise_map).2 h
  have h3 := List.Pairwise.sublist (compressGo_map_sublist thr l) h2
  exact (List.pairwise_map).1 h3

theorem gBound_compressGo (thr B : ℕ) (hthr : thr ≤ B) (l : GKList)
    (h : gBound B l) : gBound B (gkCompressGo thr l) := by
  induction l with
  | nil => simpa [gkCompressGo] using h
  | cons c rest ih =>
    have hc := h c (by simp)
    have hrest : gBound B rest := fun e he => h e (by simp [he])
    have ih2 := ih hrest
    simp only [gkCompressGo]
    split
    · intro e he
      simp at he
      rw [he]
      exact hc
    · rename_i x r2 heq
      rw [heq] at ih2
      split
      · rename_i hmerge
        intro e he
        rcases List.mem_cons.1 he with h1 | h1
        · rw [h1]
          exact ⟨le_trans hc.1 (Nat.le_add_right _ _), le_trans hmerge hthr⟩
        · exact ih2 e (by simp [h1])
      · intro e he
        rcases List.mem_cons.1 he with h1 | h1
        · rw [h1]
          exact hc
        · exact ih2 e h1

theorem entOK_compressGo (thr : ℕ) (S : List ℚ) (l : GKList) :
    ∀ acc : ℕ, entOK S acc l → entOK S acc (gkCompressGo thr l) := by
  induction l with
  | nil => intro acc h; exact h
  | cons c rest ih =>
    intro acc h
    rcases h with ⟨h1, h2, h3, h4⟩
    have ih2 := ih (acc + c.g) h4
    simp only [gkCompressGo]
    split
    · exact ⟨h1, h2, h3, trivial⟩
    · rename_i x r2 heq
      rw [heq] at ih2
      rcases ih2 with ⟨hx1, hx2, hx3, hx4⟩
      split
      · refine ⟨?_, ?_, hx3, ?_⟩
        · show acc + (c.g + x.g) ≤ countLE S x.v
          omega
        · show countLT S x.v + 1 ≤ acc + (c.g + x.g) + x.d
          omega
        · show entOK S (acc + (c.g + x.g)) r2
          have hacc : acc + (c.g + x.g) = acc + c.g + x.g := by omega
          rw [hacc]
          exact hx4
      · exact ⟨h1, h2, h3, hx1, hx2, hx3, hx4⟩

theorem GKInv_compress (eps : ℚ) (S : List ℚ) (thr : ℕ)
    (hthr : thr ≤ gkMaxBand eps S.length) (l : GKList)
    (h : GKInv eps S l) : GKInv eps S (gkCompress thr l) := by
  obtain ⟨hcount, hsort, hbound, hhead, hent⟩ := h
  rcases l with _ | ⟨e, rest⟩
  · exact ⟨hcount, hsort, hbound, hhead, hent⟩
  · unfold sortedVals at hsort
    rw [List.pairwise_cons] at hsort
    rcases hent with ⟨h1, h2, h3, h4⟩
    refine ⟨?_, ?_, ?_, hhead, ?_⟩
    · show gkCount (e :: gkCompressGo thr rest) = S.length
      rw [gkCount_cons, gkCount_compressGo]
      rw [gkCount_cons] at hcount
      exact hcount
    · show sortedVals (e :: gkCompressGo thr rest)
      unfold sortedVals
      rw [List.pairwise_cons]
      refine ⟨?_, sorted_compressGo thr rest hsort.2⟩
      intro y hy
      rcases mem_compressGo_val thr rest hy with ⟨z, hz, hzy⟩
      rw [hzy]
      exact hsort.1 z hz
    · intro x hx
      rcases List.mem_cons.1 hx with hh | hh
      · rw [hh]
        exact hbound e (by simp)
      · exact gBound_compressGo thr _ hthr rest
          (fun y hy => hbound y (by simp [hy])) x hh
    · exact ⟨h1, h2, h3, entOK_compressGo thr S rest (0 + e.g) h4⟩

theorem GKInv_insert (eps v : ℚ) (S : List ℚ) (l : GKList) (heps : 0 ≤ eps)
    (h : GKInv eps S l) : GKInv eps (v :: S) (gkInsert eps v l) := by
  have h1 := GKInv_rawInsert eps v S l heps h
  have hcnt : gkCount (gkRawInsert eps v l) = (v :: S).length := h1.1
  show GKInv eps (v :: S)
    (gkCompress (gkThreshold eps (gkCount (gkRawInsert eps v l)))
      (gkRawInsert eps v l))
  rw [hcnt]
  exact GKInv_compress eps (v :: S) _ (le_max_left _ _) _ h1

theorem GKInv_nil (eps : ℚ) : GKInv eps [] [] :=
  ⟨rfl, List.Pairwise.nil, fun e he => absurd he (List.not_mem_nil e),
    trivial, trivial⟩

theorem GKInv_foldl (eps : ℚ) (heps : 0 ≤ eps) :
    ∀ (vals S : List ℚ) (l : GKList), GKInv eps S l →
      GKInv eps (vals.reverse ++ S) (vals.foldl (fun s v => gkInsert eps v s) l) := by
  intro vals
  induction vals with
  | nil =>
    intro S l h
    simpa using h
  | cons v vs ih =>
    intro S l h
    have h2 := GKInv_insert eps v S l heps h
    have h3 := ih (v :: S) (gkInsert eps v l) h2
    simp only [List.foldl_cons]
    simpa [List.reverse_cons, List.append_assoc] using h3

theorem GKInv_mkSketch (eps : ℚ) (heps : 0 ≤ eps) (vals : List ℚ) :
    GKInv eps vals.reverse (mkSketch eps vals) := by
  have h := GKInv_foldl eps heps vals [] [] (GKInv_nil eps)
  simpa [mkSketch] using h

/-! ### The query walk returns a value of bounded rank -/

theorem gkQueryGo_rank (S : List ℚ) (t : ℤ) (B : ℕ) (l : GKList) :
    ∀ (best : ℚ) (acc : ℕ),
      entOK S acc l → gBound B l → best ∈ S → acc ≤ countLE S best →
      ((countLT S best + 1 : ℕ) : ℤ) ≤ max t 1 →
      gkQueryGo t best acc l ∈ S ∧
        ((countLT S (gkQueryGo t best acc l) + 1 : ℕ) : ℤ) ≤ max t 1 ∧
        (acc + gkCount l ≤ countLE S (gkQueryGo t best acc l) ∨
          t + 1 - (B : ℤ) ≤ (countLE S (gkQueryGo t best acc l) : ℤ)) := by
  induction l with
  | nil =>
    intro best acc h1 h2 h3 h4 h5
    refine ⟨h3, h5, Or.inl ?_⟩
    show acc + gkCount [] ≤ countLE S best
    simpa [gkCount] using h4
  | cons x rest ih =>
    intro best acc h1 h2 h3 h4 h5
    rcases h1 with ⟨hx1, hx2, hx3, hx4⟩
    by_cases hstep : ((acc + x.g + x.d : ℕ) : ℤ) ≤ t
    · have hres : gkQueryGo t best acc (x :: rest) =
          gkQueryGo t x.v (acc + x.g) rest := by
        simp only [gkQueryGo]
        rw [if_pos hstep]
      rw [hres]
      have hnew5 : ((countLT S x.v + 1 : ℕ) : ℤ) ≤ max t 1 := by
        have h6 : ((countLT S x.v + 1 : ℕ) : ℤ) ≤ ((acc + x.g + x.d : ℕ) : ℤ) := by
          exact_mod_cast hx2
        exact le_trans h6 (le_trans hstep (le_max_left _ _))
      have hrec := ih x.v (acc + x.g) hx4
        (fun e he => h2 e (by simp [he])) hx3 hx1 hnew5
      refine ⟨hrec.1, hrec.2.1, ?_⟩
      rcases hrec.2.2 with hcase | hcase
      · left
        rw [gkCount_cons]
        omega
      · right
        exact hcase
    · have hres : gkQueryGo t best acc (x :: rest) = best := by
        simp only [gkQueryGo]
        rw [if_neg hstep]
      rw [hres]
      refine ⟨h3, h5, Or.inr ?_⟩
      have hgd := h2 x (by simp)
      have h7 : (t : ℤ) < ((acc + x.g + x.d : ℕ) : ℤ) := not_le.1 hstep
      have h8 := hgd.2
      omega

theorem gkQuery_rank_aux (eps q : ℚ) (S : List ℚ) (l : GKList)
    (heps : 0 ≤ eps) (hq0 : 0 ≤ q) (hq1 : q ≤ 1)
    (h : GKInv eps S l) (hne : l ≠ []) :
    ∃ p : ℕ, isRankOf p (gkQuery eps q l) S ∧
      (⌈q * (S.length : ℚ)⌉ : ℚ) - (eps * (S.length : ℚ) + 1) ≤ (p : ℚ) ∧
      (p : ℚ) ≤ (⌈q * (S.length : ℚ)⌉ : ℚ) + (eps * (S.length : ℚ) + 1) := by
  obtain ⟨hcount, hsort, hbound, hhead, hent⟩ := h
  rcases l with _ | ⟨e, rest⟩
  · exact absurd rfl hne
  · have hn : gkCount (e :: rest) = S.length := hcount
    rcases hent with ⟨h1, h2, h3, h4⟩
    obtain ⟨hg, hd⟩ := hhead
    have ht : gkQuery eps q (e :: rest) =
        gkQueryGo (⌈q * (S.length : ℚ)⌉ + ⌈eps * (S.length : ℚ)⌉) e.v e.g rest := by
      simp only [gkQuery]
      rw [hn, ceilDiv_num_den, ceilDiv_num_den]
    rw [ht]
    have hstart4 : e.g ≤ countLE S e.v := by omega
    have hcltz : countLT S e.v + 1 ≤ 1 := by omega
    have hstart5 : ((countLT S e.v + 1 : ℕ) : ℤ) ≤
        max (⌈q * (S.length : ℚ)⌉ + ⌈eps * (S.length : ℚ)⌉) 1 := by
      have hc1 : ((countLT S e.v + 1 : ℕ) : ℤ) ≤ (1 : ℤ) := by exact_mod_cast hcltz
      exact le_trans hc1 (le_max_right _ _)
    have hent2 : entOK S e.g rest := by
      have hz : 0 + e.g = e.g := Nat.zero_add _
      rw [hz] at h4
      exact h4
    have hmain := gkQueryGo_rank S (⌈q * (S.length : ℚ)⌉ + ⌈eps * (S.length : ℚ)⌉)
      (gkMaxBand eps S.length) rest e.v e.g hent2
      (fun x hx => hbound x (by simp [hx])) h3 hstart4 hstart5
    obtain ⟨hwS, hwLT, hwLE⟩ := hmain
    set w := gkQueryGo (⌈q * (S.length : ℚ)⌉ + ⌈eps * (S.length : ℚ)⌉) e.v e.g rest
      with hwdef
    have hLq0 : (0 : ℤ) ≤ ⌈q * (S.length : ℚ)⌉ := Int.ceil_nonneg (by positivity)
    have hLe0 : (0 : ℤ) ≤ ⌈eps * (S.length : ℚ)⌉ := Int.ceil_nonneg (by positivity)
    have hLqN : ⌈q * (S.length : ℚ)⌉ ≤ (S.length : ℤ) := by
      apply Int.ceil_le.2
      have hmul : q * (S.length : ℚ) ≤ 1 * (S.length : ℚ) :=
        mul_le_mul_of_nonneg_right hq1 (by positivity)
      push_cast
      linarith
    have hLeεN : eps * (S.length : ℚ) ≤ ((⌈eps * (S.length : ℚ)⌉ : ℤ) : ℚ) :=
      Int.le_ceil _
    have hLeεN2 : ((⌈eps * (S.length : ℚ)⌉ : ℤ) : ℚ) < eps * (S.length : ℚ) + 1 :=
      Int.ceil_lt_add_one _
    have hqNle : q * (S.length : ℚ) ≤ ((⌈q * (S.length : ℚ)⌉ : ℤ) : ℚ) := Int.le_ceil _
    have hB : ((gkMaxBand eps S.length : ℕ) : ℚ) ≤ 2 * eps * (S.length : ℚ) + 1 :=
      gkMaxBand_cast_le eps S.length heps
    have hεN0 : (0 : ℚ) ≤ eps * (S.length : ℚ) := by positivity
    have hmemlt := countLT_lt_countLE_of_mem hwS
    refine ⟨max (countLT S w + 1)
      (min (countLE S w) (⌈q * (S.length : ℚ)⌉).toNat),
      ⟨?_, ?_⟩, ?_, ?_⟩
    · exact lt_of_lt_of_le (Nat.lt_succ_self _) (le_max_left _ _)
    · apply max_le
      · omega
      · exact min_le_left _ _
    · -- lower bound
      have hcast : (((⌈q * (S.length : ℚ)⌉).toNat : ℕ) : ℚ) =
          ((⌈q * (S.length : ℚ)⌉ : ℤ) : ℚ) := by
        exact_mod_cast Int.toNat_of_nonneg hLq0
      have hgoal : ((⌈q * (S.length : ℚ)⌉ : ℤ) : ℚ) - (eps * (S.length : ℚ) + 1) ≤
          ((min (countLE S w) (⌈q * (S.length : ℚ)⌉).toNat : ℕ) : ℚ) := by
        rw [Nat.cast_min]
        apply le_min
        · rcases hwLE with hcase | hcase
          · have hN' : S.length ≤ countLE S w := by
              rw [gkCount_cons] at hn
              omega
            have hc2 : ((S.length : ℕ) : ℚ) ≤
                (countLE S w : ℚ) := by exact_mod_cast hN'
            have hc3 : ((⌈q * (S.length : ℚ)⌉ : ℤ) : ℚ) ≤ ((S.length : ℕ) : ℚ) := by
              exact_mod_cast hLqN
            linarith
          · have hc2 : ((⌈q * (S.length : ℚ)⌉ + ⌈eps * (S.length : ℚ)⌉ + 1 -
                (gkMaxBand eps S.length : ℕ) : ℤ) : ℚ) ≤
                (countLE S w : ℚ) := by
              exact_mod_cast hcase
            push_cast at hc2
            linarith
        · rw [hcast]
          linarith
      refine le_trans hgoal ?_
      exact_mod_cast Nat.le_max_right _ _
    · -- upper bound
      rw [Nat.cast_max]
      apply max_le
      · rcases le_total (⌈q * (S.length : ℚ)⌉ + ⌈eps * (S.length : ℚ)⌉) 1 with hcase | hcase
        · have hm : max (⌈q * (S.length : ℚ)⌉ + ⌈eps * (S.length : ℚ)⌉) 1 = 1 :=
            max_eq_right hcase
          rw [hm] at hwLT
          have hc1 : ((countLT S w + 1 : ℕ) : ℚ) ≤ 1 := by
            exact_mod_cast hwLT
          have hc2 : (0 : ℚ) ≤ ((⌈q * (S.length : ℚ)⌉ : ℤ) : ℚ) := by
            exact_mod_cast hLq0
          push_cast at hc1 ⊢
          linarith
        · have hm : max (⌈q * (S.length : ℚ)⌉ + ⌈eps * (S.length : ℚ)⌉) 1 =
              ⌈q * (S.length : ℚ)⌉ + ⌈eps * (S.length : ℚ)⌉ := max_eq_left hcase
          rw [hm] at hwLT
          have hc1 : ((countLT S w + 1 : ℕ) : ℚ) ≤
              ((⌈q * (S.length : ℚ)⌉ + ⌈eps * (S.length : ℚ)⌉ : ℤ) : ℚ) := by
            exact_mod_cast hwLT
          push_cast at hc1 ⊢
          linarith
      · have hmin : ((min (countLE S w)
            (⌈q * (S.length : ℚ)⌉).toNat : ℕ) : ℚ) ≤
            (((⌈q * (S.length : ℚ)⌉).toNat : ℕ) : ℚ) := by
          exact_mod_cast Nat.min_le_right _ _
        have hcast : (((⌈q * (S.length : ℚ)⌉).toNat : ℕ) : ℚ) =
            ((⌈q * (S.length : ℚ)⌉ : ℤ) : ℚ) := by
          exact_mod_cast Int.toNat_of_nonneg hLq0
        rw [hcast] at hmin
        linarith

/-- C2 (amended): for every inserted sequence of `N` values and every target
quantile `0 ≤ φ ≤ 1`, `Query(φ)` on the sketch built with error bound
`ε ≥ 0` returns an inserted value having a possible rank `p` within
`⌈φ·N⌉ ± (ε·N + 1)`; the spec's tighter window `φ·N ± ε·N` is refuted by
`gkQuery_rank_cex`. -/
theorem gkQuery_rank (eps q : ℚ) (vals : List ℚ)
    (heps : 0 ≤ eps) (hq0 : 0 ≤ q) (hq1 : q ≤ 1) (hne : vals ≠ []) :
    ∃ p : ℕ, isRankOf p (gkQuery eps q (mkSketch eps vals)) vals ∧
      (⌈q * (vals.length : ℚ)⌉ : ℚ) - (eps * (vals.length : ℚ) + 1) ≤ (p : ℚ) ∧
      (p : ℚ) ≤ (⌈q * (vals.length : ℚ)⌉ : ℚ) + (eps * (vals.length : ℚ) + 1) := by
  have hinv := GKInv_mkSketch eps heps vals
  have hne2 : mkSketch eps vals ≠ [] := by
    intro hnil
    have hc := hinv.1
    rw [hnil] at hc
    have hlen0 : vals.reverse.length = 0 := by simpa [gkCount] using hc.symm
    rw [List.length_reverse] at hlen0
    exact hne (List.length_eq_zero.1 hlen0)
  have haux := gkQuery_rank_aux eps q vals.reverse (mkSketch eps vals)
    heps hq0 hq1 hinv hne2
  rw [List.length_reverse] at haux
  obtain ⟨p, ⟨hr1, hr2⟩, hlo, hhi⟩ := haux
  rw [countLT_reverse] at hr1
  rw [countLE_reverse] at hr2
  exact ⟨p, ⟨hr1, hr2⟩, hlo, hhi⟩

/-- C2 witness: at `vals = [5]`, `φ = 1/2`, `ε = 1/100` the amended bound
holds with all hypotheses discharged concretely. -/
theorem gkQuery_rank_witness :
    ∃ p : ℕ, isRankOf p (gkQuery sketchEps (mkRat 1 2) (mkSketch sketchEps [5])) [5] ∧
      (⌈(mkRat 1 2 : ℚ) * (([5] : List ℚ).length : ℚ)⌉ : ℚ) -
        (sketchEps * (([5] : List ℚ).length : ℚ) + 1) ≤ (p : ℚ) ∧
      (p : ℚ) ≤ (⌈(mkRat 1 2 : ℚ) * (([5] : List ℚ).length : ℚ)⌉ : ℚ) +
        (sketchEps * (([5] : List ℚ).length : ℚ) + 1) :=
  gkQuery_rank sketchEps (mkRat 1 2) [5] (by decide) (by decide) (by decide)
    (by decide)

/-- C2 counterexample: the claim as stated fails. With `ε = 1/100` (the
repository's `NewTargeted` tolerance) and the single inserted value `5`,
`Query(1/2)` returns `5`, whose only possible rank is `1`, while the claimed
window `φ·N ± ε·N = [0.49, 0.51]` contains no rank of the returned value. -/
theorem gkQuery_rank_cex :
    ¬ ∃ p : ℕ, isRankOf p (gkQuery sketchEps (mkRat 1 2) (mkSketch sketchEps [5])) [5] ∧
      (mkRat 1 2 : ℚ) * (([5] : List ℚ).length : ℚ) -
        sketchEps * (([5] : List ℚ).length : ℚ) ≤ (p : ℚ) ∧
      (p : ℚ) ≤ (mkRat 1 2 : ℚ) * (([5] : List ℚ).length : ℚ) +
        sketchEps * (([5] : List ℚ).length : ℚ) := by
  rintro ⟨p, hrank, hlo, hhi⟩
  have hw : gkQuery sketchEps (mkRat 1 2) (mkSketch sketchEps [5]) = 5 := by decide
  rw [hw] at hrank
  obtain ⟨ha, hb⟩ := hrank
  have h1 : countLT [(5 : ℚ)] 5 = 0 := by decide
  have h2 : countLE [(5 : ℚ)] 5 = 1 := by decide
  rw [h1] at ha
  rw [h2] at hb
  have hp : p = 1 := by omega
  subst hp
  have hq : (mkRat 1 2 : ℚ) = 1 / 2 := by
    rw [Rat.mkRat_eq_divInt, Rat.divInt_eq_div]
    norm_num
  have he : (sketchEps : ℚ) = 1 / 100 := by
    show mkRat 1 100 = (1 / 100 : ℚ)
    rw [Rat.mkRat_eq_divInt, Rat.divInt_eq_div]
    norm_num
  rw [hq, he] at hhi
  norm_num at hhi

end FirehoseExporter
